import Mathlib

/-!
Verification of the thinking-chain orchestration engine (`thinking_chain.py`).

Text is modelled as `List Char`.  The external model client is modelled as an
oracle: a list of response contents consumed in order (the engine's control
flow never depends on the prompt text it sends, only on the responses).
The `json5` module (an external library that may or may not be installed) is
modelled as an `Option` of a lenient parser function, threaded to the parsing
functions exactly where the source consults the module-level `json5` global.
-/

namespace TC

set_option maxRecDepth 100000

/-- `class PhaseStatus(Enum)` of thinking_chain.py. -/
inductive PhaseStatus where
  | pending
  | in_progress
  | complete
  | failed
  | need_revision
deriving DecidableEq

/-- The `.value` string of a `PhaseStatus` member (used by `to_dict`). -/
def PhaseStatus.value : PhaseStatus → List Char
  | .pending => String.toList "pending"
  | .in_progress => String.toList "in_progress"
  | .complete => String.toList "complete"
  | .failed => String.toList "failed"
  | .need_revision => String.toList "need_revision"

/-- `class PhaseAction(Enum)` of thinking_chain.py. -/
inductive PhaseAction where
  | proceed
  | recurse
  | revise
  | complete
deriving DecidableEq

/-- The `.value` string of a `PhaseAction` member. -/
def PhaseAction.value : PhaseAction → List Char
  | .proceed => String.toList "proceed"
  | .recurse => String.toList "recurse"
  | .revise => String.toList "revise"
  | .complete => String.toList "complete"

/-- `PhaseAction(s)`: enum lookup by value; raises `ValueError` (modelled as
`none`) on an unknown string. -/
def phaseActionOfString (s : List Char) : Option PhaseAction :=
  if s = String.toList "proceed" then some .proceed
  else if s = String.toList "recurse" then some .recurse
  else if s = String.toList "revise" then some .revise
  else if s = String.toList "complete" then some .complete
  else none

/-- JSON values as produced by `json.loads`.  Numbers are decimal literals
`man / 10 ^ exp` (the payloads the engine handles use plain decimal numbers;
e-notation plays no role in any claim).  Object entries keep insertion order,
duplicate keys are resolved at parse time exactly as a Python dict would
(later key wins), so an object list never holds duplicates. -/
inductive Json where
  | null
  | bool (b : Bool)
  | num (man : Int) (exp : Nat)
  | str (s : List Char)
  | arr (xs : List Json)
  | obj (kvs : List (List Char × Json))

mutual

/-- Structural boolean equality on `Json` (Python `==` on the values the
engine compares; used only for dict-key comparison of phase names). -/
def jbeq : Json → Json → Bool
  | .null, .null => true
  | .bool a, .bool b => a == b
  | .num a e1, .num b e2 => a == b && e1 == e2
  | .str a, .str b => a == b
  | .arr a, .arr b => jbeqList a b
  | .obj a, .obj b => jbeqObj a b
  | _, _ => false

/-- Pointwise `jbeq` on arrays. -/
def jbeqList : List Json → List Json → Bool
  | [], [] => true
  | x :: xs, y :: ys => jbeq x y && jbeqList xs ys
  | _, _ => false

/-- Pointwise `jbeq` on object entry lists. -/
def jbeqObj : List (List Char × Json) → List (List Char × Json) → Bool
  | [], [] => true
  | (k1, v1) :: xs, (k2, v2) :: ys => k1 == k2 && jbeq v1 v2 && jbeqObj xs ys
  | _, _ => false

end

/-- Python `dict` lookup on an insertion-ordered association list. -/
def pyDictGet {κ : Type} (eq : κ → κ → Bool) (d : List (κ × Json)) (k : κ) :
    Option Json :=
  match d with
  | [] => none
  | (k1, v) :: rest => if eq k1 k then some v else pyDictGet eq rest k

/-- Python `d[k] = v`: overwrite in place if the key exists (keeping its
position), otherwise append. -/
def pyDictSet {κ : Type} (eq : κ → κ → Bool) (d : List (κ × Json)) (k : κ)
    (v : Json) : List (κ × Json) :=
  match d with
  | [] => [(k, v)]
  | (k1, v1) :: rest =>
    if eq k1 k then (k1, v) :: rest else (k1, v1) :: pyDictSet eq rest k v

/-- Lookup with string keys (JSON object access `output['key']`). -/
def jget (d : List (List Char × Json)) (k : List Char) : Option Json :=
  pyDictGet (fun a b => a == b) d k

/-- Python whitespace for `str.strip()` and the regex class `\s`
(ASCII: space, tab, newline, carriage return, vertical tab, form feed). -/
def isPyWs (c : Char) : Bool :=
  c = ' ' || c = '\t' || c = '\n' || c = '\r' || c = '\x0b' || c = '\x0c'

/-- Python `str.strip()`. -/
def pyStrip (l : List Char) : List Char :=
  ((l.dropWhile isPyWs).reverse.dropWhile isPyWs).reverse

/-- Python `str.rstrip()`. -/
def pyRstrip (l : List Char) : List Char :=
  (l.reverse.dropWhile isPyWs).reverse

/-- Python `str.strip('"')`: drop every leading and trailing quote char. -/
def stripQuotes (l : List Char) : List Char :=
  ((l.dropWhile (· = '"')).reverse.dropWhile (· = '"')).reverse

/-- Helper for `str.find`: index of the first occurrence of `needle`. -/
def pyFindAux (hay needle : List Char) : Option Nat :=
  match hay with
  | [] => if needle.isEmpty then some 0 else none
  | _ :: rest =>
    if needle.isPrefixOf hay then some 0 else (pyFindAux rest needle).map (· + 1)

/-- Python `str.find`: first index of `needle`, or `-1` if absent. -/
def pyFind (hay needle : List Char) : Int :=
  match pyFindAux hay needle with
  | some n => (n : Int)
  | none => -1

/-- Normalize a Python slice bound to an index into a list of length `len`. -/
def pyIdx (len : Nat) (i : Int) : Nat :=
  if i < 0 then (max 0 ((len : Int) + i)).toNat else min i.toNat len

/-- Python `l[i:j]`. -/
def pySlice (l : List Char) (i j : Int) : List Char :=
  (l.take (pyIdx l.length j)).drop (pyIdx l.length i)

/-- Python `s.replace('\r\n', '\n')` specialised to the source's use. -/
def replaceCrLf : List Char → List Char
  | '\r' :: '\n' :: rest => '\n' :: replaceCrLf rest
  | c :: rest => c :: replaceCrLf rest
  | [] => []

/-- Python `content.replace('\\n', '\n')` (two-character escape to newline),
line 349 of the source. -/
def restoreNewlines : List Char → List Char
  | '\\' :: 'n' :: rest => '\n' :: restoreNewlines rest
  | c :: rest => c :: restoreNewlines rest
  | [] => []

/-- `escape_string` inside `_preprocess_json_text` (lines 79-90). -/
def escape_string (l : List Char) : List Char :=
  l.flatMap fun c =>
    if c = '"' then ['\\', '"']
    else if c = '\\' then ['\\', '\\']
    else if c = '\n' then ['\\', 'n']
    else if c = '\r' then ['\\', 'r']
    else if c = '\t' then ['\\', 't']
    else if c = '\x08' then ['\\', 'b']
    else if c = '\x0c' then ['\\', 'f']
    else [c]

/-- `_clean_json_string` (lines 131-146): CRLF to LF, right-strip every line,
drop blank lines, rejoin with LF. -/
def clean_json_string (l : List Char) : List Char :=
  let lines := (replaceCrLf l).splitOn '\n'
  let cleaned := (lines.map pyRstrip).filter (fun ln => !ln.isEmpty)
  List.intercalate ['\n'] cleaned

/-! ### The repair pass of `_preprocess_json_text` (lines 75-129)

The source applies `re.sub` with the fixed DOTALL pattern
`"([^"]+)"\s*:\s*(.+?)(?=,|\s*[}\]]|$)` and replacement `replace_pair`.
We implement the exact behaviour of this one pattern: at each scan position
the engine tries a match; the key is the run of non-quote characters between
two quotes, `\s*` before and after the colon is greedy (deterministic, since
no whitespace char is a colon), the value `(.+?)` is lazy: it takes the
shortest non-empty span after which the lookahead holds.  The lookahead
holds at a position whose remainder starts with `,`, or with optional
whitespace followed by `}` or `]`, or which is the end of the text (`$` also
matches just before a final newline).  If nothing follows the colon and its
whitespace, the engine backtracks the second `\s*` by one character and the
value becomes that last whitespace character.  (The inner helper
`process_json_value` of the source is defined but never used, so it is not
modelled.)  `re.sub` emits unmatched characters unchanged and continues
after each match. -/

/-- The lookahead `(?=,|\s*[}\]]|$)` at a position with remainder `xs`
(`$` matches at the end of the text and just before a final newline). -/
def reLookahead (xs : List Char) : Bool :=
  (xs.head? == some ',')
  || ((xs.dropWhile isPyWs).head? == some '}')
  || ((xs.dropWhile isPyWs).head? == some ']')
  || xs.isEmpty
  || (xs == ['\n'])

/-- Lazy `(.+?)` before the lookahead: shortest non-empty prefix of the
input after which `reLookahead` holds (the lookahead always holds at the end
of the text, so on non-empty input a split exists). -/
def lazySplit : List Char → List Char × List Char
  | [] => ([], [])
  | c :: cs =>
    if reLookahead cs then ([c], cs)
    else
      let p := lazySplit cs
      (c :: p.1, p.2)

/-- `replace_pair` (lines 110-121). -/
def replace_pair (key value : List Char) : List Char :=
  if (pyStrip value).head? = some '"' && value.contains '\n' then
    '"' :: key ++ '"' :: ':' :: ' ' :: '"' ::
      escape_string (stripQuotes (pyStrip value)) ++ ['"']
  else
    '"' :: key ++ '"' :: ':' :: ' ' :: value

/-- Value stage of the pattern: after the colon, `\s*` is greedy, `(.+?)` is
lazy; when nothing follows the colon's whitespace, the engine backtracks the
`\s*` by one character. -/
def matchValue (key l5 : List Char) : Option (List Char × List Char) :=
  let w := l5.takeWhile isPyWs
  let v0 := l5.dropWhile isPyWs
  if v0.isEmpty then
    match w.getLast? with
    | some cw => some (replace_pair key [cw], [])
    | none => none
  else
    let p := lazySplit v0
    some (replace_pair key p.1, p.2)

/-- After the key's closing quote: `\s*` then a mandatory colon. -/
def matchAfterKey (key l3 : List Char) : Option (List Char × List Char) :=
  match l3.dropWhile isPyWs with
  | [] => none
  | d :: l5 => if d = ':' then matchValue key l5 else none

/-- Attempt the pattern at the current position.  Returns the replacement
text and the remainder of the input after the matched span. -/
def matchAt (l : List Char) : Option (List Char × List Char) :=
  match l with
  | [] => none
  | c :: l1 =>
    if c = '"' then
      let key := l1.takeWhile (· ≠ '"')
      if key.isEmpty then none
      else
        match l1.dropWhile (· ≠ '"') with
        | [] => none
        | d :: l3 => if d = '"' then matchAfterKey key l3 else none
    else none

/-- Fuelled left-to-right `re.sub` scan (fuel bounds the number of scan
steps; each step consumes at least one character, so `length + 1` fuel is
always enough — see `reSubGo_stable`). -/
def reSubGo : Nat → List Char → List Char
  | _, [] => []
  | 0, l => l
  | fuel + 1, c :: cs =>
    match matchAt (c :: cs) with
    | none => c :: reSubGo fuel cs
    | some (repl, rest) => repl ++ reSubGo fuel rest

/-- `re.sub(pattern, replace_pair, text, flags=re.DOTALL)` (line 124). -/
def reSub (l : List Char) : List Char :=
  reSubGo (l.length + 1) l

/-- Step 4 of `_preprocess_json_text` (line 127): delete every character in
`[\x00-\x1F\x7F]`. -/
def removeCtl (l : List Char) : List Char :=
  l.filter fun c => !(c.toNat ≤ 31 || c.toNat = 127)

/-- `_preprocess_json_text` (lines 75-129): strip, run the repair pass, then
delete remaining control characters. -/
def preprocess_json_text (text : List Char) : List Char :=
  removeCtl (reSub (pyStrip text))

/-! ### Strict JSON parsing (`json.loads`)

A standard strict JSON parser over `List Char`, modelling the stdlib
`json.loads` on the payloads this engine handles: objects, arrays, strings
with escapes, decimal numbers, booleans, null; surrounding whitespace
allowed; trailing data rejected; raw control characters inside strings
rejected; duplicate object keys resolved later-wins as a Python dict does.
(Number e-notation and the non-standard NaN/Infinity literals that
`json.loads` also accepts play no role in any claim and are not modelled.)
Recursion is fuelled; fuel `length + 1` is always sufficient because every
recursive call consumes at least one character (`parseValue_mono` below lets
proofs pick any sufficient fuel). -/

/-- JSON whitespace accepted by `json.loads`. -/
def isJWs (c : Char) : Bool :=
  c = ' ' || c = '\t' || c = '\n' || c = '\r'

/-- Skip JSON whitespace. -/
def skipJWs (l : List Char) : List Char := l.dropWhile isJWs

/-- Hex digit value. -/
def hexVal (c : Char) : Option Nat :=
  if '0' ≤ c ∧ c ≤ '9' then some (c.toNat - 48)
  else if 'a' ≤ c ∧ c ≤ 'f' then some (c.toNat - 87)
  else if 'A' ≤ c ∧ c ≤ 'F' then some (c.toNat - 55)
  else none

/-- Body of a JSON string after the opening quote: returns the decoded
content and the remainder after the closing quote. -/
def parseJStr : List Char → Option (List Char × List Char)
  | [] => none
  | '"' :: rest => some ([], rest)
  | '\\' :: e :: rest =>
    match e with
    | '"' => (parseJStr rest).map fun p => ('"' :: p.1, p.2)
    | '\\' => (parseJStr rest).map fun p => ('\\' :: p.1, p.2)
    | '/' => (parseJStr rest).map fun p => ('/' :: p.1, p.2)
    | 'b' => (parseJStr rest).map fun p => ('\x08' :: p.1, p.2)
    | 'f' => (parseJStr rest).map fun p => ('\x0c' :: p.1, p.2)
    | 'n' => (parseJStr rest).map fun p => ('\n' :: p.1, p.2)
    | 'r' => (parseJStr rest).map fun p => ('\r' :: p.1, p.2)
    | 't' => (parseJStr rest).map fun p => ('\t' :: p.1, p.2)
    | 'u' =>
      match rest with
      | h1 :: h2 :: h3 :: h4 :: rest4 =>
        match hexVal h1, hexVal h2, hexVal h3, hexVal h4 with
        | some a, some b, some c, some d =>
          let n := ((a * 16 + b) * 16 + c) * 16 + d
          if n.isValidChar then
            (parseJStr rest4).map fun p => (Char.ofNat n :: p.1, p.2)
          else none
        | _, _, _, _ => none
      | _ => none
    | _ => none
  | c :: rest =>
    if c.toNat ≤ 31 then none
    else (parseJStr rest).map fun p => (c :: p.1, p.2)

/-- Digits (at least one) to a natural number. -/
def parseDigits (l : List Char) : Option (Nat × Nat × List Char) :=
  let ds := l.takeWhile Char.isDigit
  if ds.isEmpty then none
  else some (ds.foldl (fun acc c => acc * 10 + (c.toNat - 48)) 0, ds.length,
             l.dropWhile Char.isDigit)

/-- JSON number: optional minus, integer digits, optional fraction. -/
def parseJNum (l : List Char) : Option (Json × List Char) :=
  let (neg, l1) := match l with
    | '-' :: r => (true, r)
    | _ => (false, l)
  match parseDigits l1 with
  | none => none
  | some (ip, _, l2) =>
    match l2 with
    | '.' :: l3 =>
      match parseDigits l3 with
      | none => none
      | some (fp, fd, l4) =>
        let m : Int := (ip * 10 ^ fd + fp : Nat)
        some (.num (if neg then -m else m) fd, l4)
    | _ => some (.num (if neg then -(ip : Int) else (ip : Nat)) 0, l2)

mutual

/-- Parse one JSON value (leading whitespace allowed). -/
def parseValue : Nat → List Char → Option (Json × List Char)
  | 0, _ => none
  | fuel + 1, l =>
    match skipJWs l with
    | '{' :: rest => parseMembers fuel rest
    | '[' :: rest =>
      match skipJWs rest with
      | ']' :: rest1 => some (.arr [], rest1)
      | rest1 => (parseItems fuel rest1).map fun p => (.arr p.1, p.2)
    | '"' :: rest => (parseJStr rest).map fun p => (.str p.1, p.2)
    | 't' :: 'r' :: 'u' :: 'e' :: rest => some (.bool true, rest)
    | 'f' :: 'a' :: 'l' :: 's' :: 'e' :: rest => some (.bool false, rest)
    | 'n' :: 'u' :: 'l' :: 'l' :: rest => some (.null, rest)
    | l1 => parseJNum l1

/-- Object members after the opening brace. -/
def parseMembers : Nat → List Char → Option (Json × List Char)
  | 0, _ => none
  | fuel + 1, l =>
    match skipJWs l with
    | '}' :: rest => some (.obj [], rest)
    | l1 => (parsePairs fuel [] l1).map fun p => (.obj p.1, p.2)

/-- Non-empty sequence of `"key": value` pairs, accumulating with dict
semantics; expects the key's opening quote first (whitespace skipped). -/
def parsePairs : Nat → List (List Char × Json) → List Char →
    Option (List (List Char × Json) × List Char)
  | 0, _, _ => none
  | fuel + 1, acc, l =>
    match l with
    | '"' :: r =>
      match parseJStr r with
      | none => none
      | some (key, r1) =>
        match skipJWs r1 with
        | ':' :: r2 =>
          match parseValue fuel r2 with
          | none => none
          | some (v, r3) =>
            let acc1 := pyDictSet (fun a b => a == b) acc key v
            match skipJWs r3 with
            | ',' :: r4 => parsePairs fuel acc1 (skipJWs r4)
            | '}' :: r4 => some (acc1, r4)
            | _ => none
        | _ => none
    | _ => none

/-- Non-empty sequence of array items (first item's leading whitespace
already skipped). -/
def parseItems : Nat → List Char → Option (List Json × List Char)
  | 0, _ => none
  | fuel + 1, l =>
    match parseValue fuel l with
    | none => none
    | some (v, r) =>
      match skipJWs r with
      | ',' :: r1 => (parseItems fuel r1).map fun p => (v :: p.1, p.2)
      | ']' :: r1 => some ([v], r1)
      | _ => none

end

/-- `json.loads`: parse one value, allow trailing whitespace only. -/
def json_loads (l : List Char) : Option Json :=
  match parseValue (l.length + 1) l with
  | some (j, rest) => if (skipJWs rest).isEmpty then some j else none
  | none => none

/-! ### Data model: `PhaseResult`, `ThinkingPhase`, `ThinkingChain` -/

/-- `@dataclass PhaseResult` (lines 27-34).  `quality_score`, `issues` and
`suggestions` are stored untyped (Python performs no validation when the
dataclass is constructed), so they are kept as raw `Json` values. -/
structure PhaseResult where
  content : List Char
  quality_score : Json
  issues : Json
  suggestions : Json
  next_action : PhaseAction

/-- `PhaseResult.to_dict` (lines 36-44): enums become their value strings. -/
structure PhaseResultDict where
  content : List Char
  quality_score : Json
  issues : Json
  suggestions : Json
  next_action : List Char

/-- `PhaseResult.to_dict`. -/
def PhaseResult.to_dict (r : PhaseResult) : PhaseResultDict :=
  ⟨r.content, r.quality_score, r.issues, r.suggestions, r.next_action.value⟩

/-- `class ThinkingPhase` (lines 46-54).  `name` is whatever JSON value the
framework supplied (Python does not require a string). -/
structure ThinkingPhase where
  name : Json
  requirements : Json
  results : Option PhaseResult
  status : PhaseStatus
  attempt_count : Nat
  max_attempts : Nat

/-- `ThinkingPhase.__init__(name, requirements)` (lines 48-54). -/
def mkThinkingPhase (name requirements : Json) : ThinkingPhase :=
  ⟨name, requirements, none, .pending, 0, 3⟩

/-- `ThinkingPhase.to_dict` (lines 56-64); note it omits `max_attempts`. -/
structure PhaseRecord where
  name : Json
  requirements : Json
  status : List Char
  results : Option PhaseResultDict
  attempt_count : Nat

/-- `ThinkingPhase.to_dict`. -/
def ThinkingPhase.to_dict (p : ThinkingPhase) : PhaseRecord :=
  ⟨p.name, p.requirements, p.status.value, p.results.map PhaseResult.to_dict,
   p.attempt_count⟩

/-- `class ThinkingChain` state (lines 66-73); the `api_handler` collaborator
is replaced by the response oracle threaded through the functions. -/
structure ThinkingChain where
  phases : List ThinkingPhase
  context : List (Json × Json)
  original_query : List Char
  max_improvement_attempts : Nat

/-- `ThinkingChain.__init__` (lines 68-73). -/
def mkThinkingChain : ThinkingChain := ⟨[], [], [], 2⟩

/-- The `previous_results` mapping computed by `_build_phase_prompt`
(lines 380-383): every context entry except the phase's own name. -/
def previous_results (ctx : List (Json × Json)) (phase : ThinkingPhase) :
    List (Json × Json) :=
  ctx.filter fun kv => !(jbeq kv.1 phase.name)

/-! ### Response parsing (`_parse_phase_response`, `_parse_framework_response`)

Error constructors record which Python exception escapes the method:
`marker_missing` is the `ValueError` for an absent delimiter, `strict_json`
is `json.JSONDecodeError` (which carries the offending document in its
`doc` attribute), `lenient_fail` is the error raised by `json5.loads`, and
`key_missing` / `attr_error` / `bad_action` are the `KeyError` /
`AttributeError`-`TypeError` / `ValueError` raised while the `PhaseResult`
fields are read out of the parsed payload. -/

/-- Exceptions escaping the parse methods. -/
inductive PErr where
  | marker_missing
  | strict_json (doc : List Char)
  | lenient_fail
  | attr_error
  | key_missing
  | bad_action
deriving DecidableEq

/-- A lenient parser standing in for the optional `json5` module. -/
def LenientParser : Type := List Char → Option Json

/-- Lines 324-329: locate the `<phase_output>` markers and slice.  Note the
source computes `start = content.find('<phase_output>') + len('<phase_output>')`,
so `start` is `-1` plus 14 when the opening marker is absent — the
`if start == -1` test can never fire (`phase_start_never_neg_one` below). -/
def phase_output_extract (content : List Char) : Except PErr (List Char) :=
  let startI : Int := pyFind content (String.toList "<phase_output>") + 14
  let endI : Int := pyFind content (String.toList "</phase_output>")
  if startI = -1 ∨ endI = -1 then .error .marker_missing
  else .ok (pyStrip (pySlice content startI endI))

/-- Lines 283-289: the same slicing for the `<framework>` markers (with the
same `find() + len()` pattern, here `-1 + 11 = 10`). -/
def framework_extract (content : List Char) : Except PErr (List Char) :=
  let startI : Int := pyFind content (String.toList "<framework>") + 11
  let endI : Int := pyFind content (String.toList "</framework>")
  if startI = -1 ∨ endI = -1 then .error .marker_missing
  else .ok (pyStrip (pySlice content startI endI))

/-- Lines 347-357: read the `PhaseResult` fields out of the parsed payload. -/
def build_phase_result (output : Json) : Except PErr PhaseResult :=
  match output with
  | .obj kvs =>
    match (jget kvs (String.toList "output")).getD
        ((jget kvs (String.toList "analysis")).getD (.str [])) with
    | .str c =>
      let content := restoreNewlines c
      match jget kvs (String.toList "quality_check") with
      | some (.obj qc) =>
        match jget qc (String.toList "score") with
        | some score =>
          match jget qc (String.toList "issues") with
          | some issues =>
            match jget qc (String.toList "suggestions") with
            | some suggestions =>
              match jget kvs (String.toList "next_action") with
              | some (.str a) =>
                match phaseActionOfString a with
                | some act => .ok ⟨content, score, issues, suggestions, act⟩
                | none => .error .bad_action
              | some _ => .error .bad_action
              | none => .error .key_missing
            | none => .error .key_missing
          | none => .error .key_missing
        | none => .error .key_missing
      | some _ => .error .attr_error
      | none => .error .key_missing
    | _ => .error .attr_error
  | _ => .error .attr_error

/-- `_parse_phase_response` (lines 320-367): extract, preprocess, strict
parse, fall back to `json5` when available, then build the result. -/
def parse_phase_response (lenient : Option LenientParser)
    (content : List Char) : Except PErr PhaseResult :=
  match phase_output_extract content with
  | .error e => .error e
  | .ok outputStr =>
    let processed := preprocess_json_text outputStr
    match json_loads processed with
    | some output => build_phase_result output
    | none =>
      match lenient with
      | some lp =>
        match lp processed with
        | some output => build_phase_result output
        | none => .error .lenient_fail
      | none => .error (.strict_json processed)

/-- Lines 302-306: materialise `ThinkingPhase` objects from
`framework['phases']`; any missing key or wrong shape raises (modelled as
`none`). -/
def phases_of_framework (fw : Json) : Option (List ThinkingPhase) :=
  match fw with
  | .obj kvs =>
    match jget kvs (String.toList "phases") with
    | some (.arr xs) =>
      xs.mapM fun ph =>
        match ph with
        | .obj pkvs =>
          match jget pkvs (String.toList "name"),
                jget pkvs (String.toList "requirements") with
          | some n, some r => some (mkThinkingPhase n r)
          | _, _ => none
        | _ => none
    | _ => none
  | _ => none

/-- `_parse_framework_response` (lines 278-314): every exception is caught
and turned into `False`.  The module-level `json5` global is in scope (the
`lenient` parameter) but this method never consults it: a strict-parse
failure is re-raised directly (lines 295-300). -/
def parse_framework_response (_lenient : Option LenientParser)
    (eng : ThinkingChain) (content : List Char) : Bool × ThinkingChain :=
  match framework_extract content with
  | .error _ => (false, eng)
  | .ok fwStr =>
    match json_loads (clean_json_string fwStr) with
    | none => (false, eng)
    | some fw =>
      match phases_of_framework fw with
      | none => (false, eng)
      | some ps =>
        (true, { eng with
                  phases := ps,
                  context := pyDictSet jbeq eng.context
                    (.str (String.toList "framework")) fw })

/-! ### `execute_phase` (lines 411-483)

Control flow of the source: the attempt counter is bumped and the status set
to `in_progress`; the prompt is built and sent (the oracle supplies the
response; an empty oracle models the model client raising, which the outer
`except` turns into `failed`/`False`); a parse failure of any kind becomes
`failed`/`False` (`json.JSONDecodeError` via the inner handler at lines
435-440, every other exception via the outer handler at lines 480-483).  On
a parsed result the quality gate at lines 425-433 RETURNS ON EVERY BRANCH,
so the improvement block at lines 442-478 is unreachable dead code and does
not appear in the model.  The comparison `result.quality_score >= 80` can
raise `TypeError` for a non-numeric score (outer handler again); Python
treats booleans as 0/1 there (`pyGe`).

The recursive self-call happens only under
`attempt_count < max_attempts` after the increment, so
`max_attempts - attempt_count + 1` bounds the recursion depth; `executeGo`
takes that bound as structural fuel and `execute_phase` instantiates it, so
the zero-fuel branch is unreachable (`executeGo_stable` below). -/

/-- `result.quality_score >= n` under Python semantics: defined for numbers
and booleans, `TypeError` (`none`) otherwise. -/
def pyGe (v : Json) (n : Int) : Option Bool :=
  match v with
  | .num m e => some (decide (n * (10 : Int) ^ e ≤ m))
  | .bool b => some (decide (n ≤ if b then (1 : Int) else 0))
  | _ => none

/-- Lines 414-415: `phase.status = IN_PROGRESS; phase.attempt_count += 1`. -/
def attempt_start (p : ThinkingPhase) : ThinkingPhase :=
  { p with status := PhaseStatus.in_progress,
           attempt_count := p.attempt_count + 1 }

/-- A `phase.status = ...` assignment. -/
def set_status (p : ThinkingPhase) (st : PhaseStatus) : ThinkingPhase :=
  { p with status := st }

/-- Line 422: `phase.results = result`. -/
def set_results (p : ThinkingPhase) (r : PhaseResult) : ThinkingPhase :=
  { p with results := some r }

/-- Fuelled body of `execute_phase`. -/
def executeGo (lenient : Option LenientParser) :
    Nat → ThinkingPhase → List (List Char) →
    Bool × ThinkingPhase × List (List Char)
  | fuel, phase, stream =>
    let p1 := attempt_start phase
    match stream with
    | [] => (false, set_status p1 .failed, [])
    | resp :: rest =>
      match parse_phase_response lenient resp with
      | .error _ => (false, set_status p1 .failed, rest)
      | .ok result =>
        let p2 := set_results p1 result
        match pyGe result.quality_score 80 with
        | none => (false, set_status p2 .failed, rest)
        | some ge80 =>
          if ge80 && result.next_action == PhaseAction.proceed then
            (true, set_status p2 .complete, rest)
          else if result.next_action == PhaseAction.recurse
              && decide (p2.attempt_count < p2.max_attempts) then
            match fuel with
            | f + 1 =>
              executeGo lenient f (set_status p2 .need_revision) rest
            | 0 => (false, set_status p2 .failed, rest)
          else
            (false, set_status p2 .failed, rest)

/-- `ThinkingChain.execute_phase` (lines 411-483). -/
def execute_phase (lenient : Option LenientParser) (phase : ThinkingPhase)
    (stream : List (List Char)) : Bool × ThinkingPhase × List (List Char) :=
  executeGo lenient (phase.max_attempts - phase.attempt_count + 1) phase
    stream

/-! ### `init_framework` and `run` (lines 404-409, 523-541) -/

/-- `init_framework` (lines 404-409): set the query, make one model call,
parse.  `none` models the model client raising a transport error (exhausted
oracle), which propagates to the caller uncaught. -/
def init_framework (lenient : Option LenientParser) (eng : ThinkingChain)
    (query : List Char) (stream : List (List Char)) :
    Option (Bool × ThinkingChain × List (List Char)) :=
  let eng1 : ThinkingChain := { eng with original_query := query }
  match stream with
  | [] => none
  | resp :: rest =>
    let pr := parse_framework_response lenient eng1 resp
    some (pr.1, pr.2, rest)

/-- Errors escaping `run`. -/
inductive RunError where
  | transport
  | init_failed
deriving DecidableEq

/-- The phase loop of `run` (lines 528-539): execute each phase in order,
record its `to_dict`, fold its result content into the context under the
phase's own name, and break after the first failure. -/
def run_phases (lenient : Option LenientParser) :
    List ThinkingPhase → List (Json × Json) → List (List Char) →
    List PhaseRecord × List ThinkingPhase × List (Json × Json) ×
      List (List Char)
  | [], ctx, stream => ([], [], ctx, stream)
  | p :: ps, ctx, stream =>
    let r := execute_phase lenient p stream
    let p1 := r.2.1
    let ctx1 := match p1.results with
      | some res => pyDictSet jbeq ctx p1.name (.str res.content)
      | none => ctx
    if r.1 then
      let rec1 := run_phases lenient ps ctx1 r.2.2
      (p1.to_dict :: rec1.1, p1 :: rec1.2.1, rec1.2.2.1, rec1.2.2.2)
    else
      ([p1.to_dict], p1 :: ps, ctx1, r.2.2)

/-- `ThinkingChain.run` (lines 523-541). -/
def run (lenient : Option LenientParser) (eng : ThinkingChain)
    (query : List Char) (stream : List (List Char)) :
    Except RunError
      (List PhaseRecord × ThinkingChain × List (List Char)) :=
  match init_framework lenient eng query stream with
  | none => .error .transport
  | some (false, _, _) => .error .init_failed
  | some (true, eng1, s1) =>
    let r := run_phases lenient eng1.phases eng1.context s1
    .ok (r.1, { eng1 with phases := r.2.1, context := r.2.2.1 }, r.2.2.2)

/-! ### Supporting lemmas: the `execute_phase` state machine -/

@[simp] lemma attempt_start_attempt (p : ThinkingPhase) :
    (attempt_start p).attempt_count = p.attempt_count + 1 := rfl

@[simp] lemma attempt_start_max (p : ThinkingPhase) :
    (attempt_start p).max_attempts = p.max_attempts := rfl

@[simp] lemma set_status_attempt (p : ThinkingPhase) (st : PhaseStatus) :
    (set_status p st).attempt_count = p.attempt_count := rfl

@[simp] lemma set_status_max (p : ThinkingPhase) (st : PhaseStatus) :
    (set_status p st).max_attempts = p.max_attempts := rfl

@[simp] lemma set_status_status (p : ThinkingPhase) (st : PhaseStatus) :
    (set_status p st).status = st := rfl

@[simp] lemma set_results_attempt (p : ThinkingPhase) (r : PhaseResult) :
    (set_results p r).attempt_count = p.attempt_count := rfl

@[simp] lemma set_results_max (p : ThinkingPhase) (r : PhaseResult) :
    (set_results p r).max_attempts = p.max_attempts := rfl

/-- `str.find` never returns less than `-1`. -/
lemma neg_one_le_pyFind (hay needle : List Char) : -1 ≤ pyFind hay needle := by
  unfold pyFind
  cases h : pyFindAux hay needle with
  | none => simp
  | some n => simp; omega

/-- The `if start == -1` test of `_parse_phase_response` (line 326) can never
fire: `find` returns at least `-1`, so `start = find + 14` is at least 13. -/
lemma phase_start_not_neg_one (content : List Char) :
    pyFind content (String.toList "<phase_output>") + 14 ≠ -1 := by
  have := neg_one_le_pyFind content (String.toList "<phase_output>")
  omega

/-- Likewise for `_parse_framework_response` (line 285): `start = find + 11`
is at least 10. -/
lemma framework_start_not_neg_one (content : List Char) :
    pyFind content (String.toList "<framework>") + 11 ≠ -1 := by
  have := neg_one_le_pyFind content (String.toList "<framework>")
  omega

/-! One-step case lemmas for `executeGo`. -/

lemma executeGo_nil (lenient : Option LenientParser) (fuel : Nat)
    (p : ThinkingPhase) :
    executeGo lenient fuel p [] =
      (false, set_status (attempt_start p) .failed, []) := by
  rw [executeGo.eq_def]

lemma executeGo_parse_error (lenient : Option LenientParser) (fuel : Nat)
    (p : ThinkingPhase) (resp : List Char) (rest : List (List Char))
    (e : PErr) (h : parse_phase_response lenient resp = .error e) :
    executeGo lenient fuel p (resp :: rest) =
      (false, set_status (attempt_start p) .failed, rest) := by
  rw [executeGo.eq_def]
  simp [h]

lemma executeGo_type_error (lenient : Option LenientParser) (fuel : Nat)
    (p : ThinkingPhase) (resp : List Char) (rest : List (List Char))
    (result : PhaseResult)
    (h : parse_phase_response lenient resp = .ok result)
    (hg : pyGe result.quality_score 80 = none) :
    executeGo lenient fuel p (resp :: rest) =
      (false, set_status (set_results (attempt_start p) result) .failed,
       rest) := by
  rw [executeGo.eq_def]
  simp [h, hg]

lemma executeGo_complete (lenient : Option LenientParser) (fuel : Nat)
    (p : ThinkingPhase) (resp : List Char) (rest : List (List Char))
    (result : PhaseResult) (ge80 : Bool)
    (h : parse_phase_response lenient resp = .ok result)
    (hg : pyGe result.quality_score 80 = some ge80)
    (hc : ge80 = true ∧ result.next_action = PhaseAction.proceed) :
    executeGo lenient fuel p (resp :: rest) =
      (true, set_status (set_results (attempt_start p) result) .complete,
       rest) := by
  rw [executeGo.eq_def]
  simp [h, hg, hc.1, hc.2]

lemma executeGo_recurse (lenient : Option LenientParser) (fuel : Nat)
    (p : ThinkingPhase) (resp : List Char) (rest : List (List Char))
    (result : PhaseResult) (ge80 : Bool)
    (h : parse_phase_response lenient resp = .ok result)
    (hg : pyGe result.quality_score 80 = some ge80)
    (hc1 : ¬(ge80 = true ∧ result.next_action = PhaseAction.proceed))
    (hc2 : result.next_action = PhaseAction.recurse ∧
      p.attempt_count + 1 < p.max_attempts) :
    executeGo lenient (fuel + 1) p (resp :: rest) =
      executeGo lenient fuel
        (set_status (set_results (attempt_start p) result) .need_revision)
        rest := by
  rw [executeGo.eq_def]
  have hb1 : ¬((ge80 && result.next_action == PhaseAction.proceed) = true) := by
    rcases Bool.eq_false_or_eq_true ge80 with ht | hf
    · have hp : result.next_action ≠ PhaseAction.proceed := fun hp =>
        hc1 ⟨ht, hp⟩
      simp [ht, hp]
    · simp [hf]
  have hb2 : (result.next_action == PhaseAction.recurse &&
      decide ((set_results (attempt_start p) result).attempt_count <
        (set_results (attempt_start p) result).max_attempts)) = true := by
    simp [hc2.1]
    simpa using hc2.2
  simp only [h, hg]
  rw [if_neg hb1, if_pos hb2]

lemma executeGo_fail (lenient : Option LenientParser) (fuel : Nat)
    (p : ThinkingPhase) (resp : List Char) (rest : List (List Char))
    (result : PhaseResult) (ge80 : Bool)
    (h : parse_phase_response lenient resp = .ok result)
    (hg : pyGe result.quality_score 80 = some ge80)
    (hc1 : ¬(ge80 = true ∧ result.next_action = PhaseAction.proceed))
    (hc2 : ¬(result.next_action = PhaseAction.recurse ∧
      p.attempt_count + 1 < p.max_attempts)) :
    executeGo lenient fuel p (resp :: rest) =
      (false, set_status (set_results (attempt_start p) result) .failed,
       rest) := by
  rw [executeGo.eq_def]
  have hb1 : ¬((ge80 && result.next_action == PhaseAction.proceed) = true) := by
    rcases Bool.eq_false_or_eq_true ge80 with ht | hf
    · have hp : result.next_action ≠ PhaseAction.proceed := fun hp =>
        hc1 ⟨ht, hp⟩
      simp [ht, hp]
    · simp [hf]
  have hb2 : ¬((result.next_action == PhaseAction.recurse &&
      decide ((set_results (attempt_start p) result).attempt_count <
        (set_results (attempt_start p) result).max_attempts)) = true) := by
    rcases Decidable.em (result.next_action = PhaseAction.recurse) with ha | ha
    · have hlt : ¬(p.attempt_count + 1 < p.max_attempts) := fun hlt =>
        hc2 ⟨ha, hlt⟩
      simp [ha]
      simpa using hlt
    · simp [ha]
  simp only [h, hg]
  rw [if_neg hb1, if_neg hb2]

lemma executeGo_recurse_zero (lenient : Option LenientParser)
    (p : ThinkingPhase) (resp : List Char) (rest : List (List Char))
    (result : PhaseResult) (ge80 : Bool)
    (h : parse_phase_response lenient resp = .ok result)
    (hg : pyGe result.quality_score 80 = some ge80)
    (hc1 : ¬(ge80 = true ∧ result.next_action = PhaseAction.proceed))
    (hc2 : result.next_action = PhaseAction.recurse ∧
      p.attempt_count + 1 < p.max_attempts) :
    executeGo lenient 0 p (resp :: rest) =
      (false, set_status (set_results (attempt_start p) result) .failed,
       rest) := by
  rw [executeGo.eq_def]
  have hb1 : ¬((ge80 && result.next_action == PhaseAction.proceed) = true) := by
    rcases Bool.eq_false_or_eq_true ge80 with ht | hf
    · have hp : result.next_action ≠ PhaseAction.proceed := fun hp =>
        hc1 ⟨ht, hp⟩
      simp [ht, hp]
    · simp [hf]
  have hb2 : (result.next_action == PhaseAction.recurse &&
      decide ((set_results (attempt_start p) result).attempt_count <
        (set_results (attempt_start p) result).max_attempts)) = true := by
    simp [hc2.1]
    simpa using hc2.2
  simp only [h, hg]
  rw [if_neg hb1, if_pos hb2]

/-- On return, the phase's status is `complete` when `execute_phase` reports
success and `failed` when it reports failure — never an intermediate state. -/
lemma executeGo_status (lenient : Option LenientParser) :
    ∀ (fuel : Nat) (p : ThinkingPhase) (s : List (List Char)),
      (executeGo lenient fuel p s).2.1.status =
        (if (executeGo lenient fuel p s).1 then PhaseStatus.complete
         else PhaseStatus.failed) := by
  intro fuel
  induction fuel with
  | zero =>
    intro p s
    cases s with
    | nil => rw [executeGo_nil]; rfl
    | cons resp rest =>
      cases h : parse_phase_response lenient resp with
      | error e => rw [executeGo_parse_error lenient 0 p resp rest e h]; rfl
      | ok result =>
        cases hg : pyGe result.quality_score 80 with
        | none => rw [executeGo_type_error lenient 0 p resp rest result h hg]; rfl
        | some ge80 =>
          rcases Decidable.em
              (ge80 = true ∧ result.next_action = PhaseAction.proceed) with
            hc1 | hc1
          · rw [executeGo_complete lenient 0 p resp rest result ge80 h hg hc1]; rfl
          · rcases Decidable.em
                (result.next_action = PhaseAction.recurse ∧
                  p.attempt_count + 1 < p.max_attempts) with hc2 | hc2
            · rw [executeGo_recurse_zero lenient p resp rest result ge80 h hg
                hc1 hc2]
              rfl
            · rw [executeGo_fail lenient 0 p resp rest result ge80 h hg hc1
                hc2]; rfl
  | succ f ih =>
    intro p s
    cases s with
    | nil => rw [executeGo_nil]; rfl
    | cons resp rest =>
      cases h : parse_phase_response lenient resp with
      | error e => rw [executeGo_parse_error lenient (f + 1) p resp rest e h]; rfl
      | ok result =>
        cases hg : pyGe result.quality_score 80 with
        | none =>
          rw [executeGo_type_error lenient (f + 1) p resp rest result h hg]; rfl
        | some ge80 =>
          rcases Decidable.em
              (ge80 = true ∧ result.next_action = PhaseAction.proceed) with
            hc1 | hc1
          · rw [executeGo_complete lenient (f + 1) p resp rest result ge80 h
              hg hc1]; rfl
          · rcases Decidable.em
                (result.next_action = PhaseAction.recurse ∧
                  p.attempt_count + 1 < p.max_attempts) with hc2 | hc2
            · rw [executeGo_recurse lenient f p resp rest result ge80 h hg
                hc1 hc2]
              exact ih _ _
            · rw [executeGo_fail lenient (f + 1) p resp rest result ge80 h hg
                hc1 hc2]; rfl

/-- Attempt and consumption bounds for the fuelled body: the final attempt
count exceeds the initial one by at least one and by at most the number of
responses needed; if the phase entered with spare attempt budget the final
count never exceeds `max_attempts`; at most one response is consumed per
attempt; `max_attempts` is never changed. -/
lemma executeGo_bounds (lenient : Option LenientParser) :
    ∀ (fuel : Nat) (p : ThinkingPhase) (s : List (List Char)),
      p.attempt_count + 1 ≤ (executeGo lenient fuel p s).2.1.attempt_count ∧
      (executeGo lenient fuel p s).2.1.attempt_count ≤
        p.attempt_count + 1 + fuel ∧
      (p.attempt_count < p.max_attempts →
        (executeGo lenient fuel p s).2.1.attempt_count ≤ p.max_attempts) ∧
      (executeGo lenient fuel p s).2.2.length ≤ s.length ∧
      s.length - (executeGo lenient fuel p s).2.2.length ≤
        (executeGo lenient fuel p s).2.1.attempt_count - p.attempt_count ∧
      (executeGo lenient fuel p s).2.1.max_attempts = p.max_attempts := by
  intro fuel
  induction fuel with
  | zero =>
    intro p s
    cases s with
    | nil => rw [executeGo_nil]; simp; omega
    | cons resp rest =>
      cases h : parse_phase_response lenient resp with
      | error e =>
        rw [executeGo_parse_error lenient 0 p resp rest e h]; simp; omega
      | ok result =>
        cases hg : pyGe result.quality_score 80 with
        | none =>
          rw [executeGo_type_error lenient 0 p resp rest result h hg]
          simp; omega
        | some ge80 =>
          rcases Decidable.em
              (ge80 = true ∧ result.next_action = PhaseAction.proceed) with
            hc1 | hc1
          · rw [executeGo_complete lenient 0 p resp rest result ge80 h hg hc1]
            simp; omega
          · rcases Decidable.em
                (result.next_action = PhaseAction.recurse ∧
                  p.attempt_count + 1 < p.max_attempts) with hc2 | hc2
            · rw [executeGo_recurse_zero lenient p resp rest result ge80 h hg
                hc1 hc2]
              simp; omega
            · rw [executeGo_fail lenient 0 p resp rest result ge80 h hg hc1
                hc2]
              simp; omega
  | succ f ih =>
    intro p s
    cases s with
    | nil => rw [executeGo_nil]; simp; omega
    | cons resp rest =>
      cases h : parse_phase_response lenient resp with
      | error e =>
        rw [executeGo_parse_error lenient (f + 1) p resp rest e h]
        simp; omega
      | ok result =>
        cases hg : pyGe result.quality_score 80 with
        | none =>
          rw [executeGo_type_error lenient (f + 1) p resp rest result h hg]
          simp; omega
        | some ge80 =>
          rcases Decidable.em
              (ge80 = true ∧ result.next_action = PhaseAction.proceed) with
            hc1 | hc1
          · rw [executeGo_complete lenient (f + 1) p resp rest result ge80 h
              hg hc1]
            simp; omega
          · rcases Decidable.em
                (result.next_action = PhaseAction.recurse ∧
                  p.attempt_count + 1 < p.max_attempts) with hc2 | hc2
            · rw [executeGo_recurse lenient f p resp rest result ge80 h hg
                hc1 hc2]
              obtain ⟨a1, a2, a3, a4, a5, a6⟩ :=
                ih (set_status (set_results (attempt_start p) result)
                  PhaseStatus.need_revision) rest
              simp only [set_status_attempt, set_results_attempt,
                attempt_start_attempt, set_status_max, set_results_max,
                attempt_start_max] at a1 a2 a3 a4 a5 a6
              have a3h := a3 hc2.2
              simp only [List.length_cons]
              refine ⟨by omega, by omega, fun _ => by omega, by omega,
                by omega, by omega⟩
            · rw [executeGo_fail lenient (f + 1) p resp rest result ge80 h hg
                hc1 hc2]
              simp; omega

/-! ### Concrete fixtures used by witnesses and counterexamples -/

/-- A model response whose payload parses to score 85, `proceed`. -/
def respOk : List Char := String.toList
  "<phase_output>\x7b\"analysis\": \"ok\", \"quality_check\": \x7b\"score\": 85, \"issues\": [], \"suggestions\": []\x7d, \"next_action\": \"proceed\"\x7d</phase_output>"

/-- The `PhaseResult` that `respOk` parses to. -/
def resOk : PhaseResult :=
  ⟨String.toList "ok", .num 85 0, .arr [], .arr [], .proceed⟩

/-- A model response whose payload parses to score 50, `recurse`. -/
def respRec : List Char := String.toList
  "<phase_output>\x7b\"analysis\": \"low\", \"quality_check\": \x7b\"score\": 50, \"issues\": [], \"suggestions\": []\x7d, \"next_action\": \"recurse\"\x7d</phase_output>"

/-- A would-be improvement response (the engine never requests it). -/
def respImp : List Char := String.toList
  "<phase_output>\x7b\"analysis\": \"better\", \"quality_check\": \x7b\"score\": 90, \"issues\": [], \"suggestions\": []\x7d, \"next_action\": \"proceed\"\x7d</phase_output>"

/-- A fresh phase named `p1` with empty requirements. -/
def p0 : ThinkingPhase := mkThinkingPhase (.str (String.toList "p1")) (.obj [])

/-- A response with NO opening `<phase_output>` marker: 13 filler characters
(the value of `find() + len()` when `find` returns `-1`), then a well-formed
payload, then the closing marker. -/
def respNoOpen : List Char := String.toList
  "aaaaaaaaaaaaa\x7b\"analysis\": \"ok\", \"quality_check\": \x7b\"score\": 90, \"issues\": [], \"suggestions\": []\x7d, \"next_action\": \"proceed\"\x7d</phase_output>"

/-- The `PhaseResult` that `respNoOpen` silently parses to. -/
def resNoOpen : PhaseResult :=
  ⟨String.toList "ok", .num 90 0, .arr [], .arr [], .proceed⟩

/-- A response with no closing `</phase_output>` marker. -/
def respNoClose : List Char := String.toList
  "<phase_output>\x7b\"analysis\": \"ok\"\x7d"

/-- A response whose only marker is a leading closing marker. -/
def respCloseOnly : List Char := String.toList "</phase_output>x"

/-- A framework response with NO opening `<framework>` marker: 10 filler
characters, a well-formed framework payload, the closing marker. -/
def fwNoOpen : List Char := String.toList
  "aaaaaaaaaa\x7b\"phases\": [\x7b\"name\": \"p1\", \"requirements\": \x7b\x7d\x7d]\x7d</framework>"

/-! ### Claim theorems -/

/-- C10: when `execute_phase` returns, the phase's status is terminal:
`complete` exactly when it returned success and `failed` exactly when it
returned failure; `in_progress` and `need_revision` are never the status at
the moment of return. -/
theorem c10_terminal_status (lenient : Option LenientParser)
    (p : ThinkingPhase) (s : List (List Char)) :
    (execute_phase lenient p s).2.1.status =
      (if (execute_phase lenient p s).1 then PhaseStatus.complete
       else PhaseStatus.failed) :=
  executeGo_status lenient (p.max_attempts - p.attempt_count + 1) p s

/-- C5: with `attempt_count` starting at 0 and `max_attempts = 3`,
`execute_phase` makes at most 3 attempts: the final `attempt_count` never
exceeds 3 and at most 3 responses are consumed from the model (the retry
path is bounded; `execute_phase` is moreover a total function, so it
terminates on every input). -/
theorem c5_bounded_attempts (lenient : Option LenientParser)
    (p : ThinkingPhase) (s : List (List Char))
    (h0 : p.attempt_count = 0) (hm : p.max_attempts = 3) :
    (execute_phase lenient p s).2.1.attempt_count ≤ 3 ∧
    s.length - (execute_phase lenient p s).2.2.length ≤ 3 := by
  simp only [execute_phase]
  obtain ⟨a1, a2, a3, a4, a5, a6⟩ :=
    executeGo_bounds lenient (p.max_attempts - p.attempt_count + 1) p s
  have h3 := a3 (by omega)
  exact ⟨by omega, by omega⟩

/-- C5 witness: a phase that keeps answering `recurse` is retried exactly up
to the bound: three attempts, the fourth response is never consumed. -/
theorem c5_bounded_attempts_witness :
    p0.attempt_count = 0 ∧ p0.max_attempts = 3 ∧
    ((execute_phase none p0 [respRec, respRec, respRec, respOk]).2.1.attempt_count ≤ 3 ∧
     ([respRec, respRec, respRec, respOk] : List (List Char)).length -
       (execute_phase none p0 [respRec, respRec, respRec, respOk]).2.2.length ≤ 3) :=
  ⟨rfl, rfl, c5_bounded_attempts none p0 [respRec, respRec, respRec, respOk]
    rfl rfl⟩

/-- C1: on a parsed result, the quality gate of `execute_phase`:
score ≥ 80 with `proceed` completes the phase and returns success;
otherwise `recurse` with the already-incremented attempt count strictly
below `max_attempts = 3` marks `need_revision` and immediately re-executes
the same phase; every other case marks `failed` and returns failure. -/
theorem c1_quality_gate (lenient : Option LenientParser) (p : ThinkingPhase)
    (resp : List Char) (rest : List (List Char)) (r : PhaseResult) (b : Bool)
    (hparse : parse_phase_response lenient resp = .ok r)
    (hmax : p.max_attempts = 3)
    (hge : pyGe r.quality_score 80 = some b) :
    execute_phase lenient p (resp :: rest) =
      (if b = true ∧ r.next_action = PhaseAction.proceed then
        (true, set_status (set_results (attempt_start p) r) .complete, rest)
      else if r.next_action = PhaseAction.recurse ∧
          p.attempt_count + 1 < 3 then
        execute_phase lenient
          (set_status (set_results (attempt_start p) r) .need_revision) rest
      else
        (false, set_status (set_results (attempt_start p) r) .failed,
         rest)) := by
  by_cases hc1 : b = true ∧ r.next_action = PhaseAction.proceed
  · rw [if_pos hc1]
    exact executeGo_complete lenient _ p resp rest r b hparse hge hc1
  · rw [if_neg hc1]
    by_cases hc2 : r.next_action = PhaseAction.recurse ∧
        p.attempt_count + 1 < 3
    · rw [if_pos hc2]
      show executeGo lenient (p.max_attempts - p.attempt_count + 1) p
          (resp :: rest) = _
      have hfuel : p.max_attempts - p.attempt_count + 1 =
          (p.max_attempts - p.attempt_count) + 1 := rfl
      have hpos : p.max_attempts - p.attempt_count =
          (3 - (p.attempt_count + 1) + 1) := by omega
      rw [hfuel, hpos]
      rw [executeGo_recurse lenient (3 - (p.attempt_count + 1) + 1) p resp
        rest r b hparse hge hc1 ⟨hc2.1, by omega⟩]
      show _ = executeGo lenient
        ((set_status (set_results (attempt_start p) r)
            PhaseStatus.need_revision).max_attempts -
          (set_status (set_results (attempt_start p) r)
            PhaseStatus.need_revision).attempt_count + 1) _ _
      congr 1
      simp [hmax]
    · rw [if_neg hc2]
      exact executeGo_fail lenient _ p resp rest r b hparse hge hc1
        (by rw [hmax]; exact hc2)

/-- C1 witness: a first attempt that parses to score 85 with `proceed`
completes the phase in one call. -/
theorem c1_quality_gate_witness :
    parse_phase_response none respOk = Except.ok resOk ∧
    p0.max_attempts = 3 ∧
    execute_phase none p0 [respOk] =
      (true, set_status (set_results (attempt_start p0) resOk) .complete,
       []) := by
  refine ⟨by rfl, rfl, ?_⟩
  have h := c1_quality_gate none p0 respOk [] resOk true (by rfl) rfl rfl
  rw [h, if_pos ⟨rfl, rfl⟩]

/-- C3 is a code bug: the quality gate at lines 425-433 returns on every
branch, so the improvement block at lines 442-478 is unreachable.  Here the
final phase's first attempt parses to score 85 with `proceed`: the spec's
improvement conditions hold (85 < 95 and `attempt_count = 1 < 2`), yet
`execute_phase` returns success immediately after ONE model call — the
would-be improvement response is still unconsumed in the oracle and the
stored result keeps score 85. -/
theorem c3_improvement_pass_unreachable :
    execute_phase none p0 [respOk, respImp] =
      (true, set_status (set_results (attempt_start p0) resOk) .complete,
       [respImp]) ∧
    pyGe resOk.quality_score 95 = some false ∧
    (attempt_start p0).attempt_count = 1 ∧ 1 < mkThinkingChain.max_improvement_attempts := by
  exact ⟨by rfl, by rfl, rfl, by decide⟩

/-- C2 is a code bug: `start = content.find(marker) + len(marker)` makes the
`if start == -1` test unfireable (`phase_start_not_neg_one`), so a missing
OPENING marker is not detected.  With 13 filler characters and a closing
marker, extraction silently succeeds and returns a full `PhaseResult`; with
the closing marker as the only marker it fails with the strict JSON error
(an unrelated error type), not the marker error.  Only a missing CLOSING
marker produces the marker-not-found error.  The framework extractor has
the same bug (`-1 + 11 = 10`): a framework response without the opening
marker is accepted. -/
theorem c2_marker_detection_broken :
    parse_phase_response none respNoOpen = Except.ok resNoOpen ∧
    parse_phase_response none respNoClose = Except.error PErr.marker_missing ∧
    parse_phase_response none respCloseOnly =
      Except.error (PErr.strict_json []) ∧
    (parse_framework_response none mkThinkingChain fwNoOpen).1 = true := by
  exact ⟨by rfl, by rfl, by rfl, by rfl⟩

/-- A response that no extractor can parse (no markers at all). -/
def respGarbage : List Char := String.toList "garbage"

/-- Three fresh phases, as a framework of three phases would create them. -/
def phases3 : List ThinkingPhase :=
  [mkThinkingPhase (.str (String.toList "p1")) (.obj []),
   mkThinkingPhase (.str (String.toList "p2")) (.obj []),
   mkThinkingPhase (.str (String.toList "p3")) (.obj [])]

lemma getLast?_cons_of_ne_nil {α : Type} (a : α) (l : List α)
    (h : l ≠ []) : (a :: l).getLast? = l.getLast? := by
  cases l with
  | nil => exact absurd rfl h
  | cons b m => exact List.getLast?_cons_cons

/-- C4: the phase loop of `run` executes phases strictly in order and stops
at the first failure: the outcome records are exactly the `to_dict`
snapshots of the phases attempted (in order); every record before the last
is `complete`; if fewer records than phases were produced then the last
record is `failed`; phases after the failing one are left untouched (never
invoked); the record list is non-empty whenever there are phases, and has
one record per phase when no phase fails. -/
theorem c4_run_stops_at_failure (lenient : Option LenientParser) :
    ∀ (ps : List ThinkingPhase) (ctx : List (Json × Json))
      (s : List (List Char)),
      (run_phases lenient ps ctx s).1.length ≤ ps.length ∧
      (run_phases lenient ps ctx s).1 =
        ((run_phases lenient ps ctx s).2.1.take
          (run_phases lenient ps ctx s).1.length).map ThinkingPhase.to_dict ∧
      (run_phases lenient ps ctx s).2.1.drop
          (run_phases lenient ps ctx s).1.length =
        ps.drop (run_phases lenient ps ctx s).1.length ∧
      (∀ i (h : i < (run_phases lenient ps ctx s).1.length),
        i + 1 < (run_phases lenient ps ctx s).1.length →
        ((run_phases lenient ps ctx s).1.get ⟨i, h⟩).status =
          PhaseStatus.complete.value) ∧
      ((run_phases lenient ps ctx s).1.length < ps.length →
        ∃ rec1, (run_phases lenient ps ctx s).1.getLast? = some rec1 ∧
          rec1.status = PhaseStatus.failed.value) ∧
      (ps ≠ [] → (run_phases lenient ps ctx s).1 ≠ []) := by
  intro ps
  induction ps with
  | nil =>
    intro ctx s
    refine ⟨by simp [run_phases], by simp [run_phases], by simp [run_phases],
      ?_, by simp [run_phases], by simp⟩
    intro i h
    simp [run_phases] at h
  | cons p ps ih =>
    intro ctx s
    have hst := executeGo_status lenient
      (p.max_attempts - p.attempt_count + 1) p s
    rcases hb : (execute_phase lenient p s).1 with _ | _
    · -- failure: the loop stops with exactly this record
      have hout : run_phases lenient (p :: ps) ctx s =
          ([(execute_phase lenient p s).2.1.to_dict],
           (execute_phase lenient p s).2.1 :: ps,
           (match (execute_phase lenient p s).2.1.results with
            | some res => pyDictSet jbeq ctx (execute_phase lenient p s).2.1.name
                (.str res.content)
            | none => ctx),
           (execute_phase lenient p s).2.2) := by
        rw [run_phases]
        simp only [hb]
        rfl
      have hfail : (execute_phase lenient p s).2.1.status =
          PhaseStatus.failed := by
        rw [execute_phase] at hb ⊢
        simp only [hst, hb]
        decide
      rw [hout]
      refine ⟨by simp, by simp, by simp, ?_, ?_, by simp⟩
      · intro i h hlt
        simp only [List.length_singleton] at hlt
        omega
      · intro _
        exact ⟨_, rfl, by simp [ThinkingPhase.to_dict, hfail]⟩
    · -- success: the loop continues
      have hout : run_phases lenient (p :: ps) ctx s =
          ((execute_phase lenient p s).2.1.to_dict ::
            (run_phases lenient ps
              (match (execute_phase lenient p s).2.1.results with
               | some res => pyDictSet jbeq ctx
                   (execute_phase lenient p s).2.1.name (.str res.content)
               | none => ctx)
              (execute_phase lenient p s).2.2).1,
           (execute_phase lenient p s).2.1 ::
            (run_phases lenient ps
              (match (execute_phase lenient p s).2.1.results with
               | some res => pyDictSet jbeq ctx
                   (execute_phase lenient p s).2.1.name (.str res.content)
               | none => ctx)
              (execute_phase lenient p s).2.2).2.1,
           (run_phases lenient ps
              (match (execute_phase lenient p s).2.1.results with
               | some res => pyDictSet jbeq ctx
                   (execute_phase lenient p s).2.1.name (.str res.content)
               | none => ctx)
              (execute_phase lenient p s).2.2).2.2.1,
           (run_phases lenient ps
              (match (execute_phase lenient p s).2.1.results with
               | some res => pyDictSet jbeq ctx
                   (execute_phase lenient p s).2.1.name (.str res.content)
               | none => ctx)
              (execute_phase lenient p s).2.2).2.2.2) := by
        rw [run_phases]
        simp only [hb]
        rfl
      have hcomp : (execute_phase lenient p s).2.1.status =
          PhaseStatus.complete := by
        rw [execute_phase] at hb ⊢
        simp only [hst, hb]
        decide
      obtain ⟨ih1, ih2, ih3, ih4, ih5, ih6⟩ := ih
        (match (execute_phase lenient p s).2.1.results with
         | some res => pyDictSet jbeq ctx
             (execute_phase lenient p s).2.1.name (.str res.content)
         | none => ctx)
        (execute_phase lenient p s).2.2
      rw [hout]
      refine ⟨by simpa using ih1, ?_, by simpa using ih3, ?_, ?_, by simp⟩
      · simpa using ih2
      · intro i h hlt
        match i with
        | 0 => simp [ThinkingPhase.to_dict, hcomp]
        | Nat.succ j =>
          simp only [List.length_cons] at h hlt
          have := ih4 j (by omega) (by omega)
          simpa using this
      · intro hlen
        simp only [List.length_cons] at hlen
        have hlt : (run_phases lenient ps
            (match (execute_phase lenient p s).2.1.results with
             | some res => pyDictSet jbeq ctx
                 (execute_phase lenient p s).2.1.name (.str res.content)
             | none => ctx)
            (execute_phase lenient p s).2.2).1.length < ps.length := by
          omega
        obtain ⟨rec1, hr1, hr2⟩ := ih5 hlt
        refine ⟨rec1, ?_, hr2⟩
        have hpsne : ps ≠ [] := by
          intro hnil
          rw [hnil] at hlt
          simp at hlt
        have hne := ih6 hpsne
        rw [getLast?_cons_of_ne_nil _ _ hne]
        exact hr1

/-- C4 witness: on a three-phase framework where phase 2 fails, the loop
returns exactly two records — phase 1 `complete`, phase 2 `failed` — leaves
phase 3 untouched, and never consumes phase 3's response. -/
theorem c4_run_stops_at_failure_witness :
    (run_phases none phases3 [] [respOk, respGarbage, respOk]).1.length = 2 ∧
    (∃ rec1, (run_phases none phases3 []
        [respOk, respGarbage, respOk]).1.getLast? = some rec1 ∧
      rec1.status = PhaseStatus.failed.value) ∧
    (run_phases none phases3 [] [respOk, respGarbage, respOk]).2.1.drop 2 =
      phases3.drop 2 ∧
    (run_phases none phases3 [] [respOk, respGarbage, respOk]).2.2.2 =
      [respOk] := by
  obtain ⟨h1, h2, h3, h4, h5, h6⟩ :=
    c4_run_stops_at_failure none phases3 [] [respOk, respGarbage, respOk]
  have hlen : (run_phases none phases3 []
      [respOk, respGarbage, respOk]).1.length = 2 := by rfl
  refine ⟨hlen, h5 (by rw [hlen]; decide), ?_, by rfl⟩
  rw [← hlen]
  exact h3

/-! ### C7: score validation -/

/-- A response whose payload carries the out-of-range score 150. -/
def resp150 : List Char := String.toList
  "<phase_output>\x7b\"analysis\": \"ok\", \"quality_check\": \x7b\"score\": 150, \"issues\": [], \"suggestions\": []\x7d, \"next_action\": \"proceed\"\x7d</phase_output>"

/-- The `PhaseResult` that `resp150` parses to. -/
def res150 : PhaseResult :=
  ⟨String.toList "ok", .num 150 0, .arr [], .arr [], .proceed⟩

/-- A response whose payload has a `quality_check` without a `score`. -/
def respNoScore : List Char := String.toList
  "<phase_output>\x7b\"analysis\": \"ok\", \"quality_check\": \x7b\"issues\": [], \"suggestions\": []\x7d, \"next_action\": \"proceed\"\x7d</phase_output>"

/-- Does the payload carry a `quality_check.score` field? -/
def has_score_field (j : Json) : Bool :=
  match j with
  | .obj kvs =>
    match jget kvs (String.toList "quality_check") with
    | some (.obj qc) => (jget qc (String.toList "score")).isSome
    | _ => false
  | _ => false

/-- C7 counterexample: the consumer performs NO range validation — a payload
with `score = 150` (outside 0-100) parses into an accepted `PhaseResult`
carrying 150, and the attempt even succeeds (150 ≥ 80 with `proceed` makes
the phase `complete`), contradicting the claim that the attempt fails. -/
theorem c7_out_of_range_accepted :
    parse_phase_response none resp150 = Except.ok res150 ∧
    pyGe res150.quality_score 101 = some true ∧
    execute_phase none p0 [resp150] =
      (true, set_status (set_results (attempt_start p0) res150) .complete,
       []) := by
  exact ⟨by rfl, by rfl, by rfl⟩

/-- C7 amended: a payload with no `quality_check.score` (including a missing
or non-object `quality_check`) is a parse failure — `build_phase_result`
raises — and such an attempt fails; but an out-of-range numeric score is NOT
rejected (see the counterexample). -/
theorem c7_missing_score_fails (j : Json)
    (h : has_score_field j = false) :
    (∃ e, build_phase_result j = Except.error e) ∧
    execute_phase none p0 [respNoScore] =
      (false, set_status (attempt_start p0) .failed, []) := by
  constructor
  · unfold build_phase_result
    match j with
    | .null | .bool _ | .num _ _ | .str _ | .arr _ => exact ⟨_, rfl⟩
    | .obj kvs =>
      have h2 : (match jget kvs (String.toList "quality_check") with
        | some (Json.obj qc) => (jget qc (String.toList "score")).isSome
        | _ => false) = false := h
      rcases hc : (jget kvs (String.toList "output")).getD
          ((jget kvs (String.toList "analysis")).getD (.str [])) with
        _ | _ | _ | c | _ | _
      all_goals simp only [hc]
      all_goals try exact ⟨_, rfl⟩
      rcases hq : jget kvs (String.toList "quality_check") with _ | q
      · exact ⟨PErr.key_missing, rfl⟩
      · rcases q with _ | b | ⟨m, e⟩ | st | xs | qc
        · exact ⟨PErr.attr_error, rfl⟩
        · exact ⟨PErr.attr_error, rfl⟩
        · exact ⟨PErr.attr_error, rfl⟩
        · exact ⟨PErr.attr_error, rfl⟩
        · exact ⟨PErr.attr_error, rfl⟩
        · rw [hq] at h2
          rcases hs : jget qc (String.toList "score") with _ | sc
          · exact ⟨PErr.key_missing, by simp only [hs]⟩
          · simp only [hs, Option.isSome_some] at h2
            exact absurd h2 (by decide)
  · rfl

/-- C7 amended witness: the empty object has no score and is rejected. -/
theorem c7_missing_score_fails_witness :
    has_score_field (Json.obj []) = false ∧
    ((∃ e, build_phase_result (Json.obj []) = Except.error e) ∧
     execute_phase none p0 [respNoScore] =
       (false, set_status (attempt_start p0) .failed, [])) :=
  ⟨rfl, c7_missing_score_fails (Json.obj []) rfl⟩

/-! ### C8: the json5 fallback -/

/-- A phase response whose payload has a trailing comma: the strict parser
rejects it, a lenient parser would accept it. -/
def respTrailing : List Char := String.toList
  "<phase_output>\x7b\"analysis\": \"ok\", \"quality_check\": \x7b\"score\": 50, \"issues\": [], \"suggestions\": []\x7d, \"next_action\": \"proceed\",\x7d</phase_output>"

/-- A framework response whose payload has a trailing comma. -/
def fwTrailing : List Char := String.toList
  "<framework>\x7b\"phases\": [\x7b\"name\": \"p1\", \"requirements\": \x7b\x7d\x7d,]\x7d</framework>"

/-- A stand-in `json5` module: a lenient parser that accepts anything and
returns a fixed well-formed phase payload. -/
def lenientStub : LenientParser := fun _ =>
  some (.obj [(String.toList "analysis", .str (String.toList "ok")),
              (String.toList "quality_check",
               .obj [(String.toList "score", .num 50 0),
                     (String.toList "issues", .arr []),
                     (String.toList "suggestions", .arr [])]),
              (String.toList "next_action",
               .str (String.toList "proceed"))])

/-- The `PhaseResult` built from `lenientStub`'s payload. -/
def resLenient : PhaseResult :=
  ⟨String.toList "ok", .num 50 0, .arr [], .arr [], .proceed⟩

/-- C8 counterexample: with the same lenient parser installed, the
phase-output extractor falls back and succeeds on a trailing-comma payload,
but the framework extractor does not fall back — framework initialisation
still fails — contradicting "this fallback applies to extraction of both
the framework payload and the phase-output payload". -/
theorem c8_no_framework_fallback :
    parse_phase_response (some lenientStub) respTrailing =
      Except.ok resLenient ∧
    (parse_framework_response (some lenientStub) mkThinkingChain
      fwTrailing).1 = false := by
  exact ⟨by rfl, by rfl⟩

/-- C8 amended: the lenient fallback exists only in the phase-output parser.
The framework parser's behaviour is identical whatever lenient parser is or
is not installed (it never consults `json5`); in the phase parser, when the
strict parse of the preprocessed payload fails, the installed lenient
parser is consulted and its result (or its failure) decides the outcome,
and with no lenient parser installed the strict error, carrying the
offending text, propagates. -/
theorem c8_fallback_phase_only :
    (∀ (l1 l2 : Option LenientParser) (eng : ThinkingChain)
      (content : List Char),
      parse_framework_response l1 eng content =
        parse_framework_response l2 eng content) ∧
    (∀ (lp : LenientParser) (content outputStr : List Char),
      phase_output_extract content = .ok outputStr →
      json_loads (preprocess_json_text outputStr) = none →
      parse_phase_response (some lp) content =
        (match lp (preprocess_json_text outputStr) with
         | some output => build_phase_result output
         | none => Except.error PErr.lenient_fail)) ∧
    (∀ (content outputStr : List Char),
      phase_output_extract content = .ok outputStr →
      json_loads (preprocess_json_text outputStr) = none →
      parse_phase_response none content =
        Except.error (PErr.strict_json (preprocess_json_text outputStr))) := by
  refine ⟨fun l1 l2 eng content => rfl, ?_, ?_⟩
  · intro lp content outputStr hext hload
    unfold parse_phase_response
    rw [hext]
    simp only [hload]
  · intro content outputStr hext hload
    unfold parse_phase_response
    rw [hext]
    simp only [hload]

/-- C8 amended witness: instantiated on the trailing-comma response with the
stub lenient parser. -/
theorem c8_fallback_phase_only_witness :
    phase_output_extract respTrailing = .ok (pyStrip (pySlice respTrailing
      14 (pyFind respTrailing (String.toList "</phase_output>")))) ∧
    parse_phase_response (some lenientStub) respTrailing =
      (match lenientStub (preprocess_json_text (pyStrip (pySlice respTrailing
          14 (pyFind respTrailing (String.toList "</phase_output>"))))) with
       | some output => build_phase_result output
       | none => Except.error PErr.lenient_fail) ∧
    parse_phase_response none respTrailing =
      Except.error (PErr.strict_json (preprocess_json_text (pyStrip
        (pySlice respTrailing 14
          (pyFind respTrailing (String.toList "</phase_output>")))))) := by
  refine ⟨by rfl, ?_, ?_⟩
  · exact c8_fallback_phase_only.2.1 lenientStub respTrailing _ (by rfl)
      (by rfl)
  · exact c8_fallback_phase_only.2.2 respTrailing _ (by rfl) (by rfl)

/-! ### C9: the context is never reset between runs -/

/-- A framework response proposing the single phase `p1`. -/
def fwResp1 : List Char := String.toList
  "<framework>\x7b\"phases\": [\x7b\"name\": \"p1\", \"requirements\": \x7b\x7d\x7d]\x7d</framework>"

/-- A framework response proposing the single phase `p2`. -/
def fwResp2 : List Char := String.toList
  "<framework>\x7b\"phases\": [\x7b\"name\": \"p2\", \"requirements\": \x7b\x7d\x7d]\x7d</framework>"

lemma pyDictGet_set_isSome {κ : Type} (eq : κ → κ → Bool) :
    ∀ (d : List (κ × Json)) (k k2 : κ) (v : Json),
      (pyDictGet eq d k).isSome →
      (pyDictGet eq (pyDictSet eq d k2 v) k).isSome := by
  intro d
  induction d with
  | nil => intro k k2 v h; simp [pyDictGet] at h
  | cons kv rest ih =>
    intro k k2 v h
    obtain ⟨k1, v1⟩ := kv
    have hset : pyDictSet eq ((k1, v1) :: rest) k2 v =
        (if eq k1 k2 then (k1, v) :: rest
         else (k1, v1) :: pyDictSet eq rest k2 v) := rfl
    have hget : ∀ (w : Json) (dd : List (κ × Json)),
        pyDictGet eq ((k1, w) :: dd) k =
          (if eq k1 k then some w else pyDictGet eq dd k) := fun _ _ => rfl
    rw [hset]
    rcases he : eq k1 k2 with _ | _
    · simp only [he, Bool.false_eq_true, if_false]
      rw [hget] at h ⊢
      rcases hk : eq k1 k with _ | _
      · simp only [hk, Bool.false_eq_true, if_false] at h ⊢
        exact ih k k2 v h
      · simp [hk]
    · simp only [he, if_true]
      rw [hget] at h ⊢
      rcases hk : eq k1 k with _ | _
      · simp only [hk, Bool.false_eq_true, if_false] at h ⊢
        exact h
      · simp [hk]

lemma run_phases_preserves_key (lenient : Option LenientParser) :
    ∀ (ps : List ThinkingPhase) (ctx : List (Json × Json))
      (s : List (List Char)) (k : Json),
      (pyDictGet jbeq ctx k).isSome →
      (pyDictGet jbeq (run_phases lenient ps ctx s).2.2.1 k).isSome := by
  intro ps
  induction ps with
  | nil => intro ctx s k h; exact h
  | cons p rest ih =>
    intro ctx s k h
    rw [run_phases]
    have hctx : (pyDictGet jbeq
        (match (execute_phase lenient p s).2.1.results with
         | some res => pyDictSet jbeq ctx (execute_phase lenient p s).2.1.name
             (.str res.content)
         | none => ctx) k).isSome := by
      rcases (execute_phase lenient p s).2.1.results with _ | res
      · exact h
      · exact pyDictGet_set_isSome jbeq ctx k _ _ h
    rcases hb : (execute_phase lenient p s).1 with _ | _
    · simp only [hb]
      simpa using hctx
    · simp only [hb]
      simpa using ih _ _ k hctx

lemma parse_framework_context (lenient : Option LenientParser)
    (eng : ThinkingChain) (content : List Char) :
    (parse_framework_response lenient eng content).2.context = eng.context ∨
    ∃ fw, (parse_framework_response lenient eng content).2.context =
      pyDictSet jbeq eng.context (.str (String.toList "framework")) fw := by
  rcases hfe : framework_extract content with e | fwStr
  · simp only [parse_framework_response, hfe]
    exact Or.inl trivial
  · rcases hjl : json_loads (clean_json_string fwStr) with _ | fw
    · simp only [parse_framework_response, hfe, hjl]
      exact Or.inl trivial
    · rcases hpf : phases_of_framework fw with _ | ps
      · simp only [parse_framework_response, hfe, hjl, hpf]
        exact Or.inl trivial
      · simp only [parse_framework_response, hfe, hjl, hpf]
        exact Or.inr ⟨fw, rfl⟩

lemma parse_framework_preserves_key (lenient : Option LenientParser)
    (eng : ThinkingChain) (content : List Char) (k : Json)
    (h : (pyDictGet jbeq eng.context k).isSome) :
    (pyDictGet jbeq
      (parse_framework_response lenient eng content).2.context k).isSome := by
  rcases parse_framework_context lenient eng content with hc | ⟨fw, hc⟩
  · rw [hc]
    exact h
  · rw [hc]
    exact pyDictGet_set_isSome jbeq eng.context k _ _ h

set_option maxHeartbeats 2000000 in
/-- C9 counterexample: the engine never resets its context.  On a fresh
engine, one complete run leaves the entry `p1 ↦ "ok"` in the context; when
`run` is called a second time on the same engine, that entry is still there
after the second run's framework initialisation, and it flows into the
`previous_results` mapping of the second run's first phase prompt —
contradicting the claim that at the start of each `run` the context holds
no phase-result entries from earlier runs. -/
theorem c9_context_not_reset :
    ∃ recs eng1 left,
      run none mkThinkingChain (String.toList "q") [fwResp1, respOk] =
        Except.ok (recs, eng1, left) ∧
      pyDictGet jbeq eng1.context (.str (String.toList "p1")) =
        some (.str (String.toList "ok")) ∧
      ∃ b eng2 left2,
        init_framework none eng1 (String.toList "q2") [fwResp2] =
          some (b, eng2, left2) ∧
        b = true ∧
        pyDictGet jbeq eng2.context (.str (String.toList "p1")) =
          some (.str (String.toList "ok")) ∧
        pyDictGet jbeq
            (previous_results eng2.context (eng2.phases.headD p0))
            (.str (String.toList "p1")) =
          some (.str (String.toList "ok")) := by
  exact ⟨_, _, _, rfl, by rfl, _, _, _, rfl, by rfl, by rfl, by rfl⟩

/-- C9 amended: the context is created empty at engine construction and is
never cleared afterwards: `run` only adds or overwrites entries, so every
context key present before a successful `run` is still present after it —
entries from earlier runs on the same engine persist into later runs (and
are visible to their phase prompts, see the counterexample). -/
theorem c9_context_keys_persist (lenient : Option LenientParser)
    (eng : ThinkingChain) (q : List Char) (s : List (List Char))
    (recs : List PhaseRecord) (eng2 : ThinkingChain)
    (left : List (List Char))
    (h : run lenient eng q s = .ok (recs, eng2, left)) (k : Json)
    (hk : (pyDictGet jbeq eng.context k).isSome) :
    (pyDictGet jbeq eng2.context k).isSome := by
  rcases s with _ | ⟨resp, rest⟩
  · rw [run] at h
    simp [init_framework] at h
  · rw [run] at h
    rw [init_framework] at h
    rcases hb : (parse_framework_response lenient
        { eng with original_query := q } resp).1 with _ | _
    · rw [hb] at h
      simp at h
    · rw [hb] at h
      simp only [] at h
      have hinj := h
      injection hinj with h1
      injection h1 with h2 h3
      injection h3 with h4 h5
      have hctx1 : (pyDictGet jbeq (parse_framework_response lenient
          { eng with original_query := q } resp).2.context k).isSome :=
        parse_framework_preserves_key lenient _ resp k hk
      have hctx2 := run_phases_preserves_key lenient
        (parse_framework_response lenient
          { eng with original_query := q } resp).2.phases
        (parse_framework_response lenient
          { eng with original_query := q } resp).2.context rest k hctx1
      rw [← h4]
      simpa using hctx2

/-- C9 amended witness: a pre-existing context entry survives a concrete
successful run. -/
theorem c9_context_keys_persist_witness :
    ∃ recs eng2 left,
      run none
        { mkThinkingChain with
            context := [(.str (String.toList "old"),
                         .str (String.toList "v"))] }
        (String.toList "q") [fwResp1, respOk] =
        Except.ok (recs, eng2, left) ∧
      (pyDictGet jbeq eng2.context (.str (String.toList "old"))).isSome := by
  refine ⟨_, _, _, rfl, ?_⟩
  exact c9_context_keys_persist none _ (String.toList "q") [fwResp1, respOk]
    _ _ _ rfl (.str (String.toList "old")) (by rfl)

/-! ### C6 support: generic lemmas about the repair machinery -/

lemma takeWhile_append_stop {p : Char → Bool} :
    ∀ (l1 : List Char) (x : Char) (r : List Char),
      (∀ c ∈ l1, p c = true) → p x = false →
      (l1 ++ x :: r).takeWhile p = l1 := by
  intro l1
  induction l1 with
  | nil =>
    intro x r h1 hx
    simp [List.takeWhile, hx]
  | cons a l ih =>
    intro x r h1 hx
    have ha : p a = true := h1 a (by simp)
    simp only [List.cons_append, List.takeWhile_cons, ha, if_true]
    rw [ih x r (fun c hc => h1 c (by simp [hc])) hx]

lemma dropWhile_append_stop {p : Char → Bool} :
    ∀ (l1 : List Char) (x : Char) (r : List Char),
      (∀ c ∈ l1, p c = true) → p x = false →
      (l1 ++ x :: r).dropWhile p = x :: r := by
  intro l1
  induction l1 with
  | nil =>
    intro x r h1 hx
    simp [List.dropWhile, hx]
  | cons a l ih =>
    intro x r h1 hx
    have ha : p a = true := h1 a (by simp)
    simp only [List.cons_append, List.dropWhile_cons, ha, if_true]
    exact ih x r (fun c hc => h1 c (by simp [hc])) hx

lemma length_dropWhile_le' (p : Char → Bool) :
    ∀ (l : List Char), (l.dropWhile p).length ≤ l.length := by
  intro l
  induction l with
  | nil => simp
  | cons a l ih =>
    rw [List.dropWhile_cons]
    rcases ha : p a with _ | _
    · simp
    · simp only [if_true]
      calc (l.dropWhile p).length ≤ l.length := ih
        _ ≤ (a :: l).length := by simp

/-- Stripping leaves a list alone when both end characters are not
whitespace. -/
lemma pyStrip_of_ends (a b : Char) (m : List Char)
    (ha : isPyWs a = false) (hb : isPyWs b = false) :
    pyStrip (a :: m ++ [b]) = a :: m ++ [b] := by
  unfold pyStrip
  rw [show ((a :: m ++ [b]) : List Char).dropWhile isPyWs = a :: m ++ [b] by
    simp [List.dropWhile_cons, ha]]
  rw [show ((a :: m ++ [b]) : List Char).reverse = b :: (m.reverse ++ [a]) by
    simp]
  rw [show ((b :: (m.reverse ++ [a])) : List Char).dropWhile isPyWs =
      b :: (m.reverse ++ [a]) by simp [List.dropWhile_cons, hb]]
  simp

/-- Same statement for a two-element "ends" decomposition used for quotes. -/
lemma stripQuotes_wrap (m : List Char) (hne : m ≠ [])
    (hh : ∀ c ∈ m, (c = '"') = False) :
    stripQuotes ('"' :: m ++ ['"']) = m := by
  unfold stripQuotes
  rcases m with _ | ⟨c0, m1⟩
  · exact absurd rfl hne
  · have hc0 : (c0 = '"') = False := hh c0 (by simp)
    have hlast : ∀ (mr : List Char) (d : Char), (d = '"') = False →
        (d :: mr).dropWhile (· = '"') = d :: mr := by
      intro mr d hd
      simp [List.dropWhile_cons, hd]
    rw [show (('"' :: (c0 :: m1) ++ ['"']) : List Char).dropWhile (· = '"') =
        (c0 :: m1) ++ ['"'] by simp [List.dropWhile_cons, hc0]]
    rw [show (((c0 :: m1) ++ ['"']) : List Char).reverse =
        '"' :: (c0 :: m1).reverse by simp]
    rw [show (('"' :: (c0 :: m1).reverse) : List Char).dropWhile (· = '"') =
        (c0 :: m1).reverse.dropWhile (· = '"') by simp [List.dropWhile_cons]]
    have hrev : ∀ c ∈ (c0 :: m1).reverse, (c = '"') = False := by
      intro c hc
      rw [List.mem_reverse] at hc
      exact hh c hc
    rcases hr : (c0 :: m1).reverse with _ | ⟨d, mr⟩
    · exact absurd hr (by simp)
    · have hd : (d = '"') = False := by
        apply hrev
        rw [hr]
        simp
      rw [hlast mr d hd, ← hr]
      simp

lemma lazySplit_append_eq :
    ∀ (l : List Char), (lazySplit l).1 ++ (lazySplit l).2 = l := by
  intro l
  induction l with
  | nil => rfl
  | cons c cs ih =>
    rw [lazySplit]
    rcases h : reLookahead cs with _ | _
    · simp only [h, Bool.false_eq_true, if_false]
      simpa using ih
    · simp [h]

lemma lazySplit_snd_lt :
    ∀ (l : List Char), l ≠ [] → (lazySplit l).2.length < l.length := by
  intro l hl
  rcases l with _ | ⟨c, cs⟩
  · exact absurd rfl hl
  · rw [lazySplit]
    rcases h : reLookahead cs with _ | _
    · simp only [h, Bool.false_eq_true, if_false]
      rcases cs with _ | ⟨d, ds⟩
      · simp [lazySplit]
      · have := lazySplit_snd_lt (d :: ds) (by simp)
        simp only [List.length_cons] at this ⊢
        omega
    · simp [h]

lemma matchValue_rest_le (key l5 r rest : List Char)
    (h : matchValue key l5 = some (r, rest)) : rest.length ≤ l5.length := by
  rcases hv : l5.dropWhile isPyWs with _ | ⟨d, v1⟩
  · have h2 : (match (l5.takeWhile isPyWs).getLast? with
        | some cw => some (replace_pair key [cw], ([] : List Char))
        | none => none) = some (r, rest) := by
      rw [matchValue, hv] at h
      simpa using h
    rcases hw : (l5.takeWhile isPyWs).getLast? with _ | cw
    · rw [hw] at h2
      simp at h2
    · rw [hw] at h2
      injection h2 with h3
      injection h3 with h4 h5
      rw [← h5]
      simp
  · have hv0ne : l5.dropWhile isPyWs ≠ [] := by rw [hv]; simp
    have h2 : some (replace_pair key (lazySplit (l5.dropWhile isPyWs)).1,
        (lazySplit (l5.dropWhile isPyWs)).2) = some (r, rest) := by
      rw [matchValue] at h
      rw [hv] at h ⊢
      simpa using h
    injection h2 with h3
    injection h3 with h4 h5
    have hlt := lazySplit_snd_lt (l5.dropWhile isPyWs) hv0ne
    have hle := length_dropWhile_le' isPyWs l5
    rw [← h5]
    omega

lemma matchAfterKey_rest_lt (key l3 r rest : List Char)
    (h : matchAfterKey key l3 = some (r, rest)) : rest.length < l3.length := by
  rcases hv : l3.dropWhile isPyWs with _ | ⟨d, l5⟩
  · rw [matchAfterKey, hv] at h
    simp at h
  · rw [matchAfterKey, hv] at h
    have h2 : (if d = ':' then matchValue key l5 else none) =
        some (r, rest) := h
    have hl5 : l5.length + 1 ≤ l3.length := by
      have := length_dropWhile_le' isPyWs l3
      rw [hv] at this
      simpa using this
    by_cases hd : d = ':'
    · rw [if_pos hd] at h2
      have := matchValue_rest_le key l5 r rest h2
      omega
    · rw [if_neg hd] at h2
      simp at h2

lemma matchAt_rest_lt :
    ∀ (l r rest : List Char), matchAt l = some (r, rest) →
      rest.length < l.length := by
  intro l r rest h
  rcases l with _ | ⟨c, l1⟩
  · simp [matchAt] at h
  · rw [matchAt] at h
    by_cases hc : c = '"'
    · rw [if_pos hc] at h
      by_cases hk : (l1.takeWhile (· ≠ '"')).isEmpty = true
      · rw [if_pos hk] at h
        simp at h
      · rw [if_neg hk] at h
        rcases heq : l1.dropWhile (· ≠ '"') with _ | ⟨d, l3⟩
        · rw [heq] at h
          simp at h
        · rw [heq] at h
          have h2 : (if d = '"' then
              matchAfterKey (l1.takeWhile (· ≠ '"')) l3 else none) =
              some (r, rest) := h
          have hl3 : l3.length + 1 ≤ l1.length := by
            have := length_dropWhile_le' (· ≠ '"') l1
            rw [heq] at this
            simpa using this
          by_cases hd : d = '"'
          · rw [if_pos hd] at h2
            have := matchAfterKey_rest_lt _ l3 r rest h2
            simp only [List.length_cons]
            omega
          · rw [if_neg hd] at h2
            simp at h2
    · rw [if_neg hc] at h
      simp at h

lemma reSubGo_stable :
    ∀ (f : Nat), ∀ (g : Nat) (l : List Char), l.length ≤ f → l.length ≤ g →
      reSubGo f l = reSubGo g l := by
  intro f
  induction f with
  | zero =>
    intro g l hf hg
    have : l = [] := by
      rcases l with _ | _
      · rfl
      · simp at hf
    rw [this]
    rcases g with _ | g <;> rfl
  | succ f ih =>
    intro g l hf hg
    rcases l with _ | ⟨c, cs⟩
    · rcases g with _ | g <;> rfl
    · rcases g with _ | g
      · simp at hg
      · rw [reSubGo, reSubGo]
        rcases hm : matchAt (c :: cs) with _ | ⟨r, rest⟩
        · show c :: reSubGo f cs = c :: reSubGo g cs
          simp only [List.length_cons] at hf hg
          rw [ih g cs (by omega) (by omega)]
        · show r ++ reSubGo f rest = r ++ reSubGo g rest
          have hlt := matchAt_rest_lt (c :: cs) r rest hm
          simp only [List.length_cons] at hf hg hlt
          rw [ih g rest (by omega) (by omega)]

lemma reSub_cons_none (c : Char) (cs : List Char)
    (h : matchAt (c :: cs) = none) : reSub (c :: cs) = c :: reSub cs := by
  unfold reSub
  rw [show ((c :: cs) : List Char).length + 1 = (cs.length + 1) + 1 by simp]
  rw [reSubGo, h]

lemma reSub_cons_some (c : Char) (cs r rest : List Char)
    (h : matchAt (c :: cs) = some (r, rest)) :
    reSub (c :: cs) = r ++ reSub rest := by
  unfold reSub
  rw [show ((c :: cs) : List Char).length + 1 = (cs.length + 1) + 1 by simp]
  rw [reSubGo, h]
  show r ++ reSubGo (cs.length + 1) rest = r ++ reSub rest
  have hlt := matchAt_rest_lt (c :: cs) r rest h
  simp only [List.length_cons] at hlt
  rw [reSubGo_stable (cs.length + 1) (rest.length + 1) rest (by omega)
    (by omega)]
  rfl


/-! ### C6 fixtures: a canonical wrapped payload with a free string value

`c6Content s` is a phase response whose `analysis` value is the literal text
`s`.  The amended claim quantifies over every `s` built from letters,
digits, spaces and literal newlines that contains at least one newline —
the shapes on which the repair pass actually performs its escape. -/

/-- Characters allowed in the symbolic string value: newline, space, ASCII
letters and digits. -/
def c6OkChar (c : Char) : Bool :=
  c = '\n' || c = ' ' || (97 ≤ c.toNat && c.toNat ≤ 122) ||
  (65 ≤ c.toNat && c.toNat ≤ 90) || (48 ≤ c.toNat && c.toNat ≤ 57)

lemma c6Ok_ne (c d : Char) (hc : c6OkChar c = true)
    (hd : c6OkChar d = false) : ¬(c = d) := by
  intro he
  rw [he] at hc
  rw [hc] at hd
  exact absurd hd (by simp)

lemma c6Ok_cases (c : Char) (hc : c6OkChar c = true) :
    c = '\n' ∨ c = ' ' ∨ (97 ≤ c.toNat ∧ c.toNat ≤ 122) ∨
    (65 ≤ c.toNat ∧ c.toNat ≤ 90) ∨ (48 ≤ c.toNat ∧ c.toNat ≤ 57) := by
  unfold c6OkChar at hc
  simp only [Bool.or_eq_true, decide_eq_true_eq, Bool.and_eq_true] at hc
  tauto

lemma c6Ok_not_ws (c : Char) (hc : c6OkChar c = true) (hn : ¬(c = '\n'))
    (hs : ¬(c = ' ')) : isPyWs c = false := by
  have h1 := c6Ok_ne c '\t' hc (by decide)
  have h2 := c6Ok_ne c '\r' hc (by decide)
  have h3 := c6Ok_ne c '\x0b' hc (by decide)
  have h4 := c6Ok_ne c '\x0c' hc (by decide)
  simp [isPyWs, hn, hs, h1, h2, h3, h4]

lemma c6Ok_printable (c : Char) (hc : c6OkChar c = true) (hn : ¬(c = '\n')) :
    31 < c.toNat ∧ c.toNat ≠ 127 := by
  rcases c6Ok_cases c hc with h | h | h | h | h
  · exact absurd h hn
  · rw [h]
    decide
  · omega
  · omega
  · omega

/-! ### Locating the markers around a symbolic payload -/

lemma pyFindAux_self (l suf : List Char) (c0 : Char) (lt : List Char)
    (hl : l = c0 :: lt) : pyFindAux (l ++ suf) l = some 0 := by
  have hpre : l.isPrefixOf (l ++ suf) = true :=
    List.isPrefixOf_iff_prefix.mpr (List.prefix_append l suf)
  rw [hl] at hpre ⊢
  rw [List.cons_append]
  have hstep : pyFindAux (c0 :: (lt ++ suf)) (c0 :: lt) =
      (if ((c0 :: lt) : List Char).isPrefixOf (c0 :: (lt ++ suf)) then
        some 0
       else (pyFindAux (lt ++ suf) (c0 :: lt)).map (· + 1)) := rfl
  rw [hstep, List.cons_append] at *
  rw [if_pos]
  rw [← List.cons_append] at hpre
  exact hpre

lemma pyFindAux_append_skip :
    ∀ (l : List Char) (suf needle : List Char) (c0 : Char) (nt : List Char),
      needle = c0 :: nt → (∀ c ∈ l, ¬(c = c0)) →
      pyFindAux (l ++ suf) needle =
        (pyFindAux suf needle).map (· + l.length) := by
  intro l
  induction l with
  | nil =>
    intro suf needle c0 nt hne hl
    simp only [List.nil_append, List.length_nil]
    rcases pyFindAux suf needle with _ | n <;> simp
  | cons c l1 ih =>
    intro suf needle c0 nt hne hl
    have hcc : (c0 == c) = false := by
      have := hl c (by simp)
      simp only [beq_eq_false_iff_ne, ne_eq]
      intro he
      exact this he.symm
    have hpre : needle.isPrefixOf (c :: (l1 ++ suf)) = false := by
      rw [hne]
      show (c0 == c && nt.isPrefixOf (l1 ++ suf)) = false
      rw [hcc]
      simp
    rw [List.cons_append]
    have hstep : pyFindAux (c :: (l1 ++ suf)) needle =
        (if needle.isPrefixOf (c :: (l1 ++ suf)) then some 0
         else (pyFindAux (l1 ++ suf) needle).map (· + 1)) := rfl
    rw [hstep, hpre]
    simp only [Bool.false_eq_true, if_false]
    rw [ih suf needle c0 nt hne (fun d hd => hl d (by simp [hd]))]
    rcases pyFindAux suf needle with _ | n
    · simp
    · simp
      omega

/-- The concrete opening of the payload object: `{"analysis": "`. -/
def c6A : List Char := String.toList "\x7b\"analysis\": \""

/-- `c6A` without its opening brace. -/
def c6Atail : List Char := String.toList "\"analysis\": \""

/-- The rest of the payload after the value's closing quote and comma. -/
def c6Rest : List Char := String.toList
  " \"quality_check\": \x7b\"score\": 85, \"issues\": [], \"suggestions\": []\x7d, \"next_action\": \"proceed\"\x7d"

/-- `c6Rest` without its final closing brace. -/
def c6RestA : List Char := String.toList
  " \"quality_check\": \x7b\"score\": 85, \"issues\": [], \"suggestions\": []\x7d, \"next_action\": \"proceed\""

/-- What follows the symbolic value: closing quote, comma, the rest. -/
def c6B : List Char := '"' :: ',' :: c6Rest

/-- The payload object with value `s`. -/
def c6Body (s : List Char) : List Char := c6A ++ (s ++ c6B)

/-- The full wrapped response with value `s`. -/
def c6Content (s : List Char) : List Char :=
  String.toList "<phase_output>" ++ (c6Body s ++ String.toList "</phase_output>")

/-- The JSON value the payload parses to. -/
def c6Json (s : List Char) : Json :=
  .obj [(String.toList "analysis", .str s),
        (String.toList "quality_check",
         .obj [(String.toList "score", .num 85 0),
               (String.toList "issues", .arr []),
               (String.toList "suggestions", .arr [])]),
        (String.toList "next_action", .str (String.toList "proceed"))]

lemma c6Body_ne (s : List Char) (d : Char)
    (hok : ∀ c ∈ s, c6OkChar c = true) (hd : c6OkChar d = false)
    (hA : ∀ c ∈ c6A, ¬(c = d)) (hB : ∀ c ∈ c6B, ¬(c = d)) :
    ∀ c ∈ c6Body s, ¬(c = d) := by
  intro c hc
  rw [c6Body] at hc
  rcases List.mem_append.mp hc with h1 | h2
  · exact hA c h1
  · rcases List.mem_append.mp h2 with h3 | h4
    · exact c6Ok_ne c d (hok c h3) hd
    · exact hB c h4

lemma c6Body_shape (s : List Char) :
    c6Body s = '\x7b' :: ((c6Atail ++ (s ++ '"' :: ',' :: c6RestA)) ++ ['\x7d']) := by
  rw [c6Body, c6B, show c6Rest = c6RestA ++ ['\x7d'] from rfl,
    show c6A = '\x7b' :: c6Atail from rfl]
  simp [List.append_assoc]

lemma c6Body_strip (s : List Char) : pyStrip (c6Body s) = c6Body s := by
  rw [c6Body_shape]
  exact pyStrip_of_ends '\x7b' '\x7d' _ (by decide) (by decide)

/-- Marker extraction on the canonical payload returns exactly the body. -/
lemma c6_extract (s : List Char) (hok : ∀ c ∈ s, c6OkChar c = true) :
    phase_output_extract (c6Content s) = .ok (c6Body s) := by
  have hne : ∀ c ∈ String.toList "phase_output>" ++ c6Body s, ¬(c = '<') := by
    intro c hc
    rcases List.mem_append.mp hc with h1 | h2
    · clear hc
      revert c
      decide
    · exact c6Body_ne s '<' hok (by decide) (by decide) (by decide) c h2
  have hfind1 : pyFind (c6Content s) (String.toList "<phase_output>") = 0 := by
    unfold pyFind
    rw [show c6Content s = ('<' :: String.toList "phase_output>") ++
        (c6Body s ++ String.toList "</phase_output>") from rfl]
    rw [show String.toList "<phase_output>" =
        '<' :: String.toList "phase_output>" from rfl]
    rw [pyFindAux_self _ _ '<' (String.toList "phase_output>") rfl]
    rfl
  have hfind2 : pyFind (c6Content s) (String.toList "</phase_output>") =
      ((c6Body s).length + 14 : Nat) := by
    unfold pyFind
    have hshape : c6Content s = '<' :: ((String.toList "phase_output>" ++
        c6Body s) ++ String.toList "</phase_output>") := by
      rw [show c6Content s = String.toList "<phase_output>" ++
          (c6Body s ++ String.toList "</phase_output>") from rfl]
      rw [show String.toList "<phase_output>" =
          '<' :: String.toList "phase_output>" from rfl]
      simp [List.append_assoc]
    rw [hshape]
    have hstep : pyFindAux ('<' :: ((String.toList "phase_output>" ++
        c6Body s) ++ String.toList "</phase_output>"))
        (String.toList "</phase_output>") =
        (if (String.toList "</phase_output>").isPrefixOf
            ('<' :: ((String.toList "phase_output>" ++ c6Body s) ++
              String.toList "</phase_output>")) then some 0
         else (pyFindAux ((String.toList "phase_output>" ++ c6Body s) ++
            String.toList "</phase_output>")
            (String.toList "</phase_output>")).map (· + 1)) := rfl
    rw [hstep]
    have hnp : (String.toList "</phase_output>").isPrefixOf
        ('<' :: ((String.toList "phase_output>" ++ c6Body s) ++
          String.toList "</phase_output>")) = false := by
      rw [show String.toList "phase_output>" =
          'p' :: String.toList "hase_output>" from rfl]
      rfl
    rw [hnp]
    simp only [Bool.false_eq_true, if_false]
    rw [show String.toList "</phase_output>" =
        '<' :: String.toList "/phase_output>" from rfl]
    rw [pyFindAux_append_skip (String.toList "phase_output>" ++ c6Body s) _ _
        '<' (String.toList "/phase_output>") rfl hne]
    rw [show pyFindAux ('<' :: String.toList "/phase_output>")
        ('<' :: String.toList "/phase_output>") = some 0 from rfl]
    show (((0 + (String.toList "phase_output>" ++ c6Body s).length + 1 :
        Nat)) : Int) = (((c6Body s).length + 14 : Nat) : Int)
    rw [List.length_append]
    rw [show (String.toList "phase_output>").length = 13 from rfl]
    push_cast
    omega
  have hslice : pySlice (c6Content s) 14 (((c6Body s).length + 14 : Nat)) =
      c6Body s := by
    have hlen : (c6Content s).length = (c6Body s).length + 29 := by
      rw [show c6Content s = String.toList "<phase_output>" ++
          (c6Body s ++ String.toList "</phase_output>") from rfl]
      rw [List.length_append, List.length_append]
      rw [show (String.toList "<phase_output>").length = 14 from rfl,
        show (String.toList "</phase_output>").length = 15 from rfl]
      omega
    unfold pySlice
    rw [hlen]
    have hj : pyIdx ((c6Body s).length + 29)
        (((c6Body s).length + 14 : Nat)) = (c6Body s).length + 14 := by
      unfold pyIdx
      rw [if_neg (by push_cast; omega)]
      rw [show ((((c6Body s).length + 14 : Nat) : Int)).toNat =
          (c6Body s).length + 14 by omega]
      omega
    have hi : pyIdx ((c6Body s).length + 29) (14 : Int) = 14 := by
      unfold pyIdx
      rw [if_neg (by omega)]
      rw [show ((14 : Int)).toNat = 14 from rfl]
      omega
    rw [hj, hi]
    have hassoc : c6Content s = (String.toList "<phase_output>" ++ c6Body s)
        ++ String.toList "</phase_output>" := by
      rw [show c6Content s = String.toList "<phase_output>" ++
          (c6Body s ++ String.toList "</phase_output>") from rfl]
      simp [List.append_assoc]
    rw [hassoc]
    rw [show (c6Body s).length + 14 =
        (String.toList "<phase_output>" ++ c6Body s).length by
      rw [List.length_append]
      rw [show (String.toList "<phase_output>").length = 14 from rfl]
      omega]
    rw [List.take_left]
    rw [show (14 : Nat) = (String.toList "<phase_output>").length from rfl]
    rw [List.drop_left]
  unfold phase_output_extract
  rw [hfind1, hfind2]
  rw [if_neg (by push_neg; exact ⟨by omega, by push_cast; omega⟩)]
  rw [show ((0 : Int) + 14) = (14 : Int) by omega]
  rw [hslice, c6Body_strip]

/-! ### The repair pass on the canonical payload -/

/-- Inside the symbolic value the lookahead never fires: every position's
remainder starts with value characters followed by the closing quote and a
comma. -/
lemma c6_look : ∀ (t r2 : List Char), (∀ c ∈ t, c6OkChar c = true) →
    reLookahead (t ++ '"' :: ',' :: r2) = false := by
  intro t
  induction t with
  | nil =>
    intro r2 h
    show reLookahead ('"' :: ',' :: r2) = false
    unfold reLookahead
    rw [show (('"' :: ',' :: r2 : List Char).dropWhile isPyWs) =
        '"' :: ',' :: r2 from rfl]
    simp
  | cons c t' ih =>
    intro r2 h
    have hc : c6OkChar c = true := h c (by simp)
    have ih' := ih r2 (fun d hd => h d (by simp [hd]))
    unfold reLookahead at ih' ⊢
    simp only [Bool.or_eq_false_iff] at ih' ⊢
    rw [List.cons_append]
    refine ⟨⟨⟨⟨?_, ?_⟩, ?_⟩, ?_⟩, ?_⟩
    · show (some c == some ',') = false
      have h1 : ¬(c = ',') := c6Ok_ne c ',' hc (by decide)
      simp [h1]
    · by_cases hw : isPyWs c = true
      · rw [show ((c :: (t' ++ '"' :: ',' :: r2) : List Char).dropWhile
            isPyWs) = (t' ++ '"' :: ',' :: r2).dropWhile isPyWs by
          simp [List.dropWhile_cons, hw]]
        exact ih'.1.1.1.2
      · rw [show ((c :: (t' ++ '"' :: ',' :: r2) : List Char).dropWhile
            isPyWs) = c :: (t' ++ '"' :: ',' :: r2) by
          simp only [List.dropWhile_cons]
          rw [if_neg (by simp [hw])]]
        show (some c == some '}') = false
        have h1 : ¬(c = '}') := c6Ok_ne c '}' hc (by decide)
        simp [h1]
    · by_cases hw : isPyWs c = true
      · rw [show ((c :: (t' ++ '"' :: ',' :: r2) : List Char).dropWhile
            isPyWs) = (t' ++ '"' :: ',' :: r2).dropWhile isPyWs by
          simp [List.dropWhile_cons, hw]]
        exact ih'.1.1.2
      · rw [show ((c :: (t' ++ '"' :: ',' :: r2) : List Char).dropWhile
            isPyWs) = c :: (t' ++ '"' :: ',' :: r2) by
          simp only [List.dropWhile_cons]
          rw [if_neg (by simp [hw])]]
        show (some c == some ']') = false
        have h1 : ¬(c = ']') := c6Ok_ne c ']' hc (by decide)
        simp [h1]
    · rfl
    · show (c == '\n' && ((t' ++ '"' :: ',' :: r2 : List Char) == [])) = false
      have h2 : ((t' ++ '"' :: ',' :: r2 : List Char) == []) = false := by
        rcases t' with _ | ⟨d, ds⟩ <;> rfl
      simp [h2]

/-- The lazy value group swallows the quoted value and stops at the comma:
the first character is taken unconditionally, then `c6_look` keeps the scan
going until the remainder starts with `,`. -/
lemma c6_lazySplit : ∀ (t : List Char) (r2 : List Char) (d : Char),
    (∀ c ∈ t, c6OkChar c = true) →
    lazySplit (d :: (t ++ '"' :: ',' :: r2)) = (d :: t ++ ['"'], ',' :: r2) := by
  intro t
  induction t with
  | nil =>
    intro r2 d h
    show lazySplit (d :: '"' :: ',' :: r2) = (d :: ['"'], ',' :: r2)
    rw [lazySplit]
    rw [show reLookahead ('"' :: ',' :: r2) = false from c6_look [] r2 (by simp)]
    simp only [Bool.false_eq_true, if_false]
    rw [show lazySplit ('"' :: ',' :: r2) = (['"'], ',' :: r2) from by
      rw [lazySplit]
      rw [show reLookahead (',' :: r2) = true from rfl]
      simp]
  | cons c t' ih =>
    intro r2 d h
    have hc : c6OkChar c = true := h c (by simp)
    have ih' := ih r2 c (fun e he => h e (by simp [he]))
    rw [List.cons_append]
    rw [lazySplit]
    rw [show reLookahead (c :: (t' ++ '"' :: ',' :: r2)) = false from by
      rw [← List.cons_append]
      exact c6_look (c :: t') r2 h]
    simp only [Bool.false_eq_true, if_false]
    rw [ih']
    rfl

/-- `replace_pair` on the quoted multi-line value escapes it. -/
lemma c6_replace_pair (s : List Char) (hok : ∀ c ∈ s, c6OkChar c = true)
    (hnl : '\n' ∈ s) :
    replace_pair (String.toList "analysis") ('"' :: s ++ ['"']) =
      '"' :: String.toList "analysis" ++ '"' :: ':' :: ' ' :: '"' ::
        escape_string s ++ ['"'] := by
  have hcont : (('"' :: s ++ ['"'] : List Char).contains '\n') = true := by
    show (('"' :: s ++ ['"'] : List Char).elem '\n') = true
    rw [List.elem_iff]
    simp [hnl]
  have hstrip : pyStrip ('"' :: s ++ ['"']) = '"' :: s ++ ['"'] :=
    pyStrip_of_ends '"' '"' s (by decide) (by decide)
  unfold replace_pair
  rw [hstrip, hcont]
  rw [if_pos (show (decide ((('"' :: s ++ ['"'] : List Char)).head? =
      some '"') && true) = true from by rfl)]
  rw [stripQuotes_wrap s (List.ne_nil_of_mem hnl)
    (fun c hc => eq_false (c6Ok_ne c '"' (hok c hc) (by decide)))]

/-- The pattern matches the whole `"analysis": "<value>"` span and rewrites
it with the escaped value; the scan resumes at the comma. -/
lemma c6_matchAt (s r2 : List Char) (hok : ∀ c ∈ s, c6OkChar c = true)
    (hnl : '\n' ∈ s) :
    matchAt ('"' :: (String.toList "analysis" ++ '"' :: ':' :: ' ' :: '"' ::
      (s ++ '"' :: ',' :: r2))) =
    some ('"' :: String.toList "analysis" ++ '"' :: ':' :: ' ' :: '"' ::
      escape_string s ++ ['"'], ',' :: r2) := by
  show some (replace_pair (String.toList "analysis")
      (lazySplit ('"' :: (s ++ '"' :: ',' :: r2))).1,
      (lazySplit ('"' :: (s ++ '"' :: ',' :: r2))).2) = _
  rw [c6_lazySplit s r2 '"' hok]
  show some (replace_pair (String.toList "analysis") ('"' :: s ++ ['"']),
      ',' :: r2) = _
  rw [c6_replace_pair s hok hnl]

/-- The repair pass on the canonical payload: only the `analysis` value is
rewritten (escaped); the rest of the object is reproduced verbatim. -/
lemma c6_reSub (s : List Char) (hok : ∀ c ∈ s, c6OkChar c = true)
    (hnl : '\n' ∈ s) :
    reSub (c6Body s) = c6Body (escape_string s) := by
  rw [show c6Body s = '\x7b' :: ('"' :: (String.toList "analysis" ++
      '"' :: ':' :: ' ' :: '"' :: (s ++ '"' :: ',' :: c6Rest))) from rfl]
  rw [reSub_cons_none '\x7b' _ rfl]
  rw [reSub_cons_some '"' _ _ _ (c6_matchAt s c6Rest hok hnl)]
  rw [reSub_cons_none ',' c6Rest rfl]
  rw [show reSub c6Rest = c6Rest from by decide]
  show _ = '\x7b' :: ('"' :: (String.toList "analysis" ++
      '"' :: ':' :: ' ' :: '"' :: (escape_string s ++ '"' :: ',' :: c6Rest)))
  simp [List.append_assoc]

/-! ### Parsing the escaped value back -/

/-- `escape_string` leaves a plain (unescaped) character alone. -/
lemma escape_cons_plain (c : Char) (cs : List Char) (h1 : ¬(c = '"'))
    (h2 : ¬(c = '\\')) (h3 : ¬(c = '\n')) (h4 : ¬(c = '\r'))
    (h5 : ¬(c = '\t')) (h6 : ¬(c = '\x08')) (h7 : ¬(c = '\x0c')) :
    escape_string (c :: cs) = c :: escape_string cs := by
  show (if c = '"' then ['\\', '"'] else if c = '\\' then ['\\', '\\']
    else if c = '\n' then ['\\', 'n'] else if c = '\r' then ['\\', 'r']
    else if c = '\t' then ['\\', 't'] else if c = '\x08' then ['\\', 'b']
    else if c = '\x0c' then ['\\', 'f'] else [c]) ++ escape_string cs =
    c :: escape_string cs
  rw [if_neg h1, if_neg h2, if_neg h3, if_neg h4, if_neg h5, if_neg h6,
    if_neg h7]
  rfl

/-- The strict string scanner consumes one plain character. -/
lemma parseJStr_plain (c : Char) (rest : List Char) (h1 : ¬(c = '"'))
    (h2 : ¬(c = '\\')) (h3 : 31 < c.toNat) :
    parseJStr (c :: rest) = (parseJStr rest).map fun p => (c :: p.1, p.2) := by
  rw [parseJStr.eq_def]
  split
  · rename_i heq
    exact absurd heq (by simp)
  · rename_i r heq
    injection heq with ha hb
    exact absurd ha h1
  · rename_i e r heq
    injection heq with ha hb
    exact absurd ha h2
  · rename_i d r hn1 hn2 hn3 heq
    injection heq with ha hb
    subst ha
    subst hb
    rw [if_neg (by omega)]

/-- Round trip of the escape pass through the strict string scanner: over
the restricted alphabet only `\n` escapes arise and they decode back to the
newline. -/
lemma parseJStr_esc : ∀ (s r : List Char), (∀ c ∈ s, c6OkChar c = true) →
    parseJStr (escape_string s ++ '"' :: r) = some (s, r) := by
  intro s
  induction s with
  | nil => intro r h; rfl
  | cons c cs ih =>
    intro r h
    have hc : c6OkChar c = true := h c (by simp)
    have ih' := ih r (fun d hd => h d (by simp [hd]))
    by_cases hn : c = '\n'
    · subst hn
      rw [show escape_string ('\n' :: cs) = '\\' :: 'n' :: escape_string cs
        from rfl]
      rw [List.cons_append, List.cons_append]
      show (parseJStr (escape_string cs ++ '"' :: r)).map
        (fun p => ('\n' :: p.1, p.2)) = some ('\n' :: cs, r)
      rw [ih']
      rfl
    · have h1 : ¬(c = '"') := c6Ok_ne c '"' hc (by decide)
      have h2 : ¬(c = '\\') := c6Ok_ne c '\\' hc (by decide)
      have h4 : ¬(c = '\r') := c6Ok_ne c '\r' hc (by decide)
      have h5 : ¬(c = '\t') := c6Ok_ne c '\t' hc (by decide)
      have h6 : ¬(c = '\x08') := c6Ok_ne c '\x08' hc (by decide)
      have h7 : ¬(c = '\x0c') := c6Ok_ne c '\x0c' hc (by decide)
      rw [escape_cons_plain c cs h1 h2 hn h4 h5 h6 h7, List.cons_append]
      rw [parseJStr_plain c _ h1 h2 (c6Ok_printable c hc hn).1]
      rw [ih']
      rfl

/-- The control-character sweep leaves the escaped value intact: the only
control character of the alphabet, the newline, is already escaped. -/
lemma removeCtl_escape : ∀ (s : List Char), (∀ c ∈ s, c6OkChar c = true) →
    removeCtl (escape_string s) = escape_string s := by
  intro s
  induction s with
  | nil => intro h; rfl
  | cons c cs ih =>
    intro h
    have hc : c6OkChar c = true := h c (by simp)
    have ih' := ih (fun d hd => h d (by simp [hd]))
    by_cases hn : c = '\n'
    · subst hn
      rw [show escape_string ('\n' :: cs) = '\\' :: 'n' :: escape_string cs
        from rfl]
      show '\\' :: 'n' :: removeCtl (escape_string cs) =
        '\\' :: 'n' :: escape_string cs
      rw [ih']
    · have h1 : ¬(c = '"') := c6Ok_ne c '"' hc (by decide)
      have h2 : ¬(c = '\\') := c6Ok_ne c '\\' hc (by decide)
      have h4 : ¬(c = '\r') := c6Ok_ne c '\r' hc (by decide)
      have h5 : ¬(c = '\t') := c6Ok_ne c '\t' hc (by decide)
      have h6 : ¬(c = '\x08') := c6Ok_ne c '\x08' hc (by decide)
      have h7 : ¬(c = '\x0c') := c6Ok_ne c '\x0c' hc (by decide)
      rw [escape_cons_plain c cs h1 h2 hn h4 h5 h6 h7]
      have hpr := c6Ok_printable c hc hn
      have hp : (!(decide (c.toNat ≤ 31) || decide (c.toNat = 127))) =
          true := by
        have hd1 : decide (c.toNat ≤ 31) = false := by
          simp only [decide_eq_false_iff_not]
          omega
        have hd2 : decide (c.toNat = 127) = false := by
          simp only [decide_eq_false_iff_not]
          omega
        rw [hd1, hd2]
        rfl
      unfold removeCtl
      rw [List.filter_cons, if_pos hp]
      show c :: removeCtl (escape_string cs) = c :: escape_string cs
      rw [ih']

/-- `_preprocess_json_text` on the canonical payload: the body comes back
with the value escaped and nothing else changed. -/
lemma c6_preprocess (s : List Char) (hok : ∀ c ∈ s, c6OkChar c = true)
    (hnl : '\n' ∈ s) :
    preprocess_json_text (c6Body s) = c6Body (escape_string s) := by
  unfold preprocess_json_text
  rw [c6Body_strip, c6_reSub s hok hnl]
  have hA : removeCtl c6A = c6A := by decide
  have hB : removeCtl c6B = c6B := by decide
  have hE := removeCtl_escape s hok
  show removeCtl (c6A ++ (escape_string s ++ c6B)) =
    c6A ++ (escape_string s ++ c6B)
  unfold removeCtl at hA hB hE ⊢
  rw [List.filter_append, List.filter_append, hA, hB, hE]

/-! ### Strict parse of the repaired payload -/

set_option maxHeartbeats 2000000 in
/-- One unfolding step of `parseValue` into an object. -/
lemma parseValue_obj_step (g : Nat) (l r : List Char)
    (res : Option (Json × List Char))
    (h1 : skipJWs l = '\x7b' :: r) (h2 : parseMembers g r = res) :
    parseValue (g + 1) l = res := by
  simp only [parseValue, h1]
  exact h2

/-- One unfolding step of `parseValue` into a string literal. -/
lemma parseValue_str_step (g : Nat) (l r sv r2 : List Char)
    (h1 : skipJWs l = '"' :: r) (h2 : parseJStr r = some (sv, r2)) :
    parseValue (g + 1) l = some (.str sv, r2) := by
  simp only [parseValue, h1, h2]
  rfl

/-- One unfolding step of `parseMembers` on a non-empty object. -/
lemma parseMembers_step (g : Nat) (l r : List Char)
    (res : Option (Json × List Char))
    (h1 : skipJWs l = '"' :: r)
    (h2 : (parsePairs g [] ('"' :: r)).map
      (fun p => (Json.obj p.1, p.2)) = res) :
    parseMembers (g + 1) l = res := by
  simp only [parseMembers, h1]
  exact h2

/-- One unfolding step of `parsePairs` through a pair followed by a comma. -/
lemma parsePairs_step (g : Nat) (acc : List (List Char × Json))
    (r r1 r2 r3 r4 key : List Char) (v : Json)
    (res : Option (List (List Char × Json) × List Char))
    (h1 : parseJStr r = some (key, r1))
    (h2 : skipJWs r1 = ':' :: r2)
    (h3 : parseValue g r2 = some (v, r3))
    (h4 : skipJWs r3 = ',' :: r4)
    (h5 : parsePairs g (pyDictSet (fun a b => a == b) acc key v)
      (skipJWs r4) = res) :
    parsePairs (g + 1) acc ('"' :: r) = res := by
  simp only [parsePairs, h1, h2, h3, h4]
  exact h5

/-- The escaped `analysis` value parses back to the raw value `s`. -/
lemma c6_value_str (s : List Char) (g : Nat)
    (hok : ∀ c ∈ s, c6OkChar c = true) :
    parseValue (g + 1)
      (' ' :: '"' :: (escape_string s ++ '"' :: ',' :: c6Rest)) =
      some (.str s, ',' :: c6Rest) :=
  parseValue_str_step g _ _ s (',' :: c6Rest) rfl
    (parseJStr_esc s (',' :: c6Rest) hok)

/-- Strict parse of the repaired payload body (any sufficient fuel). -/
lemma c6_parseValue (s : List Char) (f : Nat)
    (hok : ∀ c ∈ s, c6OkChar c = true) :
    parseValue (f + 10) (c6Body (escape_string s)) = some (c6Json s, []) := by
  refine parseValue_obj_step (f + 9) _
    ('"' :: (String.toList "analysis" ++ '"' :: ':' :: ' ' :: '"' ::
      (escape_string s ++ '"' :: ',' :: c6Rest))) _ rfl ?_
  refine parseMembers_step (f + 8) _
    (String.toList "analysis" ++ '"' :: ':' :: ' ' :: '"' ::
      (escape_string s ++ '"' :: ',' :: c6Rest)) _ rfl ?_
  have hp : parsePairs (f + 8) []
      ('"' :: (String.toList "analysis" ++ '"' :: ':' :: ' ' :: '"' ::
        (escape_string s ++ '"' :: ',' :: c6Rest))) =
      some ([(String.toList "analysis", Json.str s),
             (String.toList "quality_check",
              Json.obj [(String.toList "score", Json.num 85 0),
                        (String.toList "issues", Json.arr []),
                        (String.toList "suggestions", Json.arr [])]),
             (String.toList "next_action",
              Json.str (String.toList "proceed"))], []) := by
    refine parsePairs_step (f + 7) [] _ _
      (' ' :: '"' :: (escape_string s ++ '"' :: ',' :: c6Rest))
      (',' :: c6Rest) c6Rest (String.toList "analysis") (Json.str s) _
      rfl rfl (c6_value_str s (f + 6) hok) rfl ?_
    rfl
  rw [hp]
  rfl

/-- `json.loads` accepts the repaired payload body. -/
lemma c6_json_loads (s : List Char) (hok : ∀ c ∈ s, c6OkChar c = true) :
    json_loads (c6Body (escape_string s)) = some (c6Json s) := by
  unfold json_loads
  have hlen : (c6Body (escape_string s)).length =
      (escape_string s).length + 107 := by
    rw [c6Body, List.length_append, List.length_append]
    rw [show c6A.length = 14 from rfl, show c6B.length = 93 from rfl]
    omega
  rw [show (c6Body (escape_string s)).length + 1 =
      ((c6Body (escape_string s)).length - 9) + 10 by omega]
  rw [c6_parseValue s _ hok]
  rfl

/-- `content.replace('\\n', '\n')` is the identity on text without a
backslash. -/
lemma restoreNewlines_no_bs : ∀ (s : List Char), (∀ c ∈ s, ¬(c = '\\')) →
    restoreNewlines s = s := by
  intro s
  induction s with
  | nil => intro h; rfl
  | cons c cs ih =>
    intro h
    have hc : ¬(c = '\\') := h c (by simp)
    have ih' := ih (fun d hd => h d (by simp [hd]))
    rw [restoreNewlines.eq_def]
    split
    · rename_i rest heq
      injection heq with ha hb
      exact absurd ha hc
    · rename_i d rest hne heq
      injection heq with ha hb
      subst ha
      subst hb
      rw [ih']
    · rename_i heq
      exact absurd heq (by simp)

/-- `_parse_phase_response` when extraction and the strict parse both
succeed. -/
lemma parse_phase_ok_step (lp : Option LenientParser)
    (content body : List Char) (j : Json)
    (h1 : phase_output_extract content = .ok body)
    (h2 : json_loads (preprocess_json_text body) = some j) :
    parse_phase_response lp content = build_phase_result j := by
  unfold parse_phase_response
  rw [h1]
  simp only [h2]

/-- C6 (amended): over the alphabet of ASCII letters, digits, spaces and
newlines, a canonical delimiter-wrapped payload whose `analysis` value
contains a literal newline round-trips exactly: the repair pass escapes the
value, the strict parse decodes the escape back, and the parsed content
field equals the original value verbatim.  (The claim as stated, for ANY
value with a literal newline, is refuted by `c6_comma_value_truncated`.) -/
theorem c6_repair_roundtrip (s : List Char)
    (hok : ∀ c ∈ s, c6OkChar c = true) (hnl : '\n' ∈ s) :
    parse_phase_response none (c6Content s) =
      .ok ⟨s, .num 85 0, .arr [], .arr [], .proceed⟩ := by
  rw [parse_phase_ok_step none (c6Content s) (c6Body s) (c6Json s)
    (c6_extract s hok)
    (by rw [c6_preprocess s hok hnl]; exact c6_json_loads s hok)]
  rw [show build_phase_result (c6Json s) =
      .ok ⟨restoreNewlines s, .num 85 0, .arr [], .arr [], .proceed⟩ from rfl]
  rw [restoreNewlines_no_bs s
    (fun c hc => c6Ok_ne c '\\' (hok c hc) (by decide))]

/-- Witness for `c6_repair_roundtrip` at the two-line value
`line1\nline2`. -/
theorem c6_repair_roundtrip_witness :
    (∀ c ∈ String.toList "line1\nline2", c6OkChar c = true) ∧
    '\n' ∈ String.toList "line1\nline2" ∧
    parse_phase_response none (c6Content (String.toList "line1\nline2")) =
      .ok ⟨String.toList "line1\nline2", .num 85 0, .arr [], .arr [],
        .proceed⟩ :=
  ⟨by decide, by decide,
   c6_repair_roundtrip (String.toList "line1\nline2") (by decide)
     (by decide)⟩

/-- C6 counterexample: the value `ab, cd\nef` contains a literal newline
and parsing still succeeds, but the extracted content is `ab, cdef`, not
the original text: the lazy value group of the repair pattern stops at the
first comma, so the newline is never escaped and is then deleted by the
control-character sweep.  The round-trip law as stated is false. -/
theorem c6_comma_value_truncated :
    parse_phase_response none (c6Content (String.toList "ab, cd\nef")) =
      .ok ⟨String.toList "ab, cdef", .num 85 0, .arr [], .arr [],
        .proceed⟩ ∧
    ¬(String.toList "ab, cdef" = String.toList "ab, cd\nef") :=
  ⟨by rfl, by decide⟩

end TC
